import Mathlib

/-!
Shallow embedding of the congruence-closure engine declared in
`src/library/tactic/congruence/congruence_closure.h`.  The header provides
the data model (class entries, parent occurrences, congruence tables, the
`state` record with its in-class initializers) and the operation
interface.  The bodies of the operations are not part of the given
sources, so the operational definitions below are modelled from the
specification (internalization walk, assertion entry point, merge engine,
proof reconstruction); each such definition says so in its doc comment.
Machine integers (`unsigned`) are modelled as `Nat`: the counters involved
(`m_gmt`, `m_size`, `m_mt`) only ever grow by small increments, so no
wrap-around behaviour is relevant to the properties treated here.
-/

namespace CC

/-- Opaque symbolic terms: the engine only compares them structurally and
decomposes applications.  `atom` is an ordinary uninterpreted symbol,
`value` is an interpreted/abstract value (a numeral-like literal, which
the engine flags as `m_interpreted`), and `app` is function application
(curried, one argument at a time, as in the source's `expr`). -/
inductive Term where
  | atom : Nat → Term
  | value : Nat → Term
  | app : Term → Term → Term
deriving DecidableEq

/-- Symbolic proof objects produced by the engine.  The external proof
representation is out of scope for the core (the header stores opaque
`expr` proofs); the model only records how proofs are composed:
`hyp` is a proof supplied by the caller of `add`, `refl` a reflexivity
proof, `symm`/`trans` the usual combinators, `congr e1 e2` the proof
obtained from the external congruence-lemma manager for two congruent
applications, and `link e1 e2 H` the proof connecting the two old roots
that is synthesized during a merge from the chains of `e1` and `e2`
and the popped proof `H`. -/
inductive Pf where
  | hyp : Nat → Pf
  | refl : Term → Pf
  | symm : Pf → Pf
  | trans : Pf → Pf → Pf
  | congr : Term → Term → Pf
  | link : Term → Term → Pf → Pf
deriving DecidableEq

/-- Equivalence class data associated with an expression `e`; field for
field the `entry` struct of the header (the packed one-bit bitfields
become `Bool`). -/
structure entry where
  m_next : Term
  m_root : Term
  m_cg_root : Term
  m_target : Option Term
  m_proof : Option Pf
  m_flipped : Bool
  m_to_propagate : Bool
  m_interpreted : Bool
  m_constructor : Bool
  m_heq_proofs : Bool
  m_fo : Bool
  m_size : Nat
  m_mt : Nat
deriving DecidableEq

/-- A parent occurrence, as in the header: the parent expression plus the
flag saying which congruence table indexes it.  The model has no
registered symmetric relations (the relation manager is an external
collaborator), so the flag is always `false` here. -/
structure parent_occ where
  m_expr : Term
  m_symm_table : Bool
deriving DecidableEq

/-- The `congruence_closure::config` struct of the header. -/
structure config where
  m_ignore_instances : Bool
  m_values : Bool
  m_all_ho : Bool
deriving DecidableEq

/-- The `congruence_closure::state` class of the header.  The persistent
`rb_map`/`rb_tree` tables are modelled as association lists (the choice
of tree structure is a performance matter per the specification, not a
correctness one).  The congruence tables store the member expressions;
their keys are recomputed from the current roots at lookup time, which
is what the source's key comparator does (the stored hash is likewise
derived data). -/
structure state where
  m_entries : List (Term × entry)
  m_parents : List (Term × List parent_occ)
  m_congruences : List Term
  m_symm_congruences : List Term
  m_subsingleton_reprs : List (Term × Term)
  m_froze_partitions : Bool
  m_inconsistent : Bool
  m_gmt : Nat
  m_ho_fns : List Nat
  m_config : config
deriving DecidableEq

/-- A pending equality, the header's `todo_entry`:
`(lhs, rhs, proof, is_heq)`. -/
abbrev todo_entry := Term × Term × Pf × Bool

/-- Association-list lookup keyed by terms. -/
def alookup {α : Type} : List (Term × α) → Term → Option α
  | [], _ => none
  | p :: l, e => if e = p.1 then some p.2 else alookup l e

/-- Pointwise update of an association list; keys and their order are
unchanged. -/
def amap {α : Type} (f : Term → α → α) : List (Term × α) → List (Term × α)
  | [] => []
  | p :: l => (p.1, f p.1 p.2) :: amap f l

/-- `state::state(ho_fns, cfg)`: the freshly constructed state.  The
flag/counter initial values are the in-class initializers of the header
(`m_froze_partitions{false}`, `m_inconsistent{false}`, `m_gmt{0}`); the
tables are default-constructed, hence empty. -/
def mk_state (ho_fns : List Nat) (cfg : config) : state :=
  { m_entries := [], m_parents := [], m_congruences := [],
    m_symm_congruences := [], m_subsingleton_reprs := [],
    m_froze_partitions := false, m_inconsistent := false, m_gmt := 0,
    m_ho_fns := ho_fns, m_config := cfg }

/-- `get_entry`: the entry associated with `e`, if any. -/
def get_entry (s : state) (e : Term) : Option entry :=
  alookup s.m_entries e

/-- `state::get_root`: the canonical representative of `e`'s class; a
term without an entry is its own representative. -/
def get_root (s : state) (e : Term) : Term :=
  match get_entry s e with
  | some n => n.m_root
  | none => e

/-- `state::get_next`: the successor of `e` in the circular membership
list of its class. -/
def get_next (s : state) (e : Term) : Term :=
  match get_entry s e with
  | some n => n.m_next
  | none => e

/-- `state::get_mt`: the mod-time of `e`'s entry. -/
def get_mt (s : state) (e : Term) : Nat :=
  match get_entry s e with
  | some n => n.m_mt
  | none => 0

/-- `congruence_closure::is_eqv`: both terms have entries and the entries
share a root. -/
def is_eqv (s : state) (e1 e2 : Term) : Bool :=
  match get_entry s e1, get_entry s e2 with
  | some n1, some n2 => decide (n1.m_root = n2.m_root)
  | _, _ => false

/-- `state::is_congr_root`: `e` is its own congruence-table
representative. -/
def is_congr_root (s : state) (e : Term) : Bool :=
  match get_entry s e with
  | some n => decide (n.m_cg_root = e)
  | none => true

/-- `state::in_singleton_eqc`: the class of `e` has exactly one
member. -/
def in_singleton_eqc (s : state) (e : Term) : Bool :=
  match get_entry s (get_root s e) with
  | some n => decide (n.m_size = 1)
  | none => true

/-- `state::in_heterogeneous_eqc`: per the header comment on
`m_heq_proofs`, the equivalence class of `e` contains proofs based on
heterogeneous equality; this information is maintained on (and read
from) the entry of the class's root. -/
def in_heterogeneous_eqc (s : state) (e : Term) : Bool :=
  match get_entry s (get_root s e) with
  | some n => n.m_heq_proofs
  | none => false

/-- `state::get_gmt`. -/
def get_gmt (s : state) : Nat := s.m_gmt

/-- `state::inconsistent`. -/
def inconsistent (s : state) : Bool := s.m_inconsistent

/-- The number of equivalence classes: one root entry per class. -/
def num_classes (s : state) : Nat :=
  (s.m_entries.filter (fun p => decide (p.2.m_root = p.1))).length

/-- `is_interpreted_value`: whether the node should be viewed as an
abstract value.  Recognition of numerals and the like is delegated to
external collaborators; the model makes it a term-former. -/
def is_interpreted_value : Term → Bool
  | Term.value _ => true
  | _ => false

/-- The entry of a newly registered term: a singleton class whose member
is its own root and congruence root, with no justification, size `1` and
mod-time equal to the current `gmt`. -/
def fresh_entry (e : Term) (to_propagate interpreted constructor : Bool)
    (g : Nat) : entry :=
  { m_next := e, m_root := e, m_cg_root := e, m_target := none,
    m_proof := none, m_flipped := false, m_to_propagate := to_propagate,
    m_interpreted := interpreted, m_constructor := constructor,
    m_heq_proofs := false, m_fo := false, m_size := 1, m_mt := g }

/-- `mk_entry_core`: create the entry of a newly registered term.
Modelled from the spec: a term that already has an entry is left
untouched. -/
def mk_entry_core (s : state) (e : Term)
    (to_propagate interpreted constructor : Bool) : state :=
  match get_entry s e with
  | some _ => s
  | none =>
    { s with m_entries := s.m_entries ++
        [(e, fresh_entry e to_propagate interpreted constructor s.m_gmt)] }

/-- `mk_entry`: classify the term and create its entry.  Constructor
recognition queries the external environment; the model's only
interpreted values are `Term.value` literals. -/
def mk_entry (s : state) (e : Term) (to_propagate : Bool) : state :=
  mk_entry_core s e to_propagate (is_interpreted_value e) false

/-- `add_occurrence`: record that `parent` contains `child`, keying the
occurrence by the current root of `child` as the source does. -/
def pinsert (ps : List (Term × List parent_occ)) (k : Term)
    (occ : parent_occ) : List (Term × List parent_occ) :=
  match alookup ps k with
  | some _ => amap (fun t l => if t = k then l ++ [occ] else l) ps
  | none => ps ++ [(k, [occ])]

/-- Modelled from the spec: occurrence registration for the parent
`parent` of the immediate subterm `child`. -/
def add_occurrence (s : state) (parent child : Term)
    (symm_table : Bool) : state :=
  { s with m_parents := (pinsert s.m_parents (get_root s child)
      ⟨parent, symm_table⟩) }

/-- Congruence-key comparison, after substituting each child by its
current root: two applications collide exactly when their functions and
arguments are respectively in the same classes.  This is the comparator
of `congr_key_cmp` (the stored hash is derived data and omitted). -/
def congr_key_eq (s : state) : Term → Term → Bool
  | Term.app f1 a1, Term.app f2 a2 =>
      decide (get_root s f1 = get_root s f2) &&
      decide (get_root s a1 = get_root s a2)
  | _, _ => false

/-- Look up a colliding congruence-table representative for `e`, other
than `e` itself. -/
def table_find (s : state) (e : Term) : Option Term :=
  s.m_congruences.find? (fun q => congr_key_eq s e q && decide (q ≠ e))

/-- Set the congruence root stored in `e`'s entry. -/
def set_cg_root (s : state) (e tgt : Term) : state :=
  { s with m_entries := (amap
      (fun t n => if t = e then { n with m_cg_root := tgt } else n)
      s.m_entries) }

/-- Modelled from the spec: `add_congruence_table e` inserts the
application `e` into the plain congruence table.  A collision with an
existing entry `q` of equal key makes `q` the congruence root of `e` and
schedules the congruence-derived equality `e = q`; otherwise `e` becomes
a table representative. -/
def add_congruence_table (s : state) (e : Term) : state × List todo_entry :=
  match table_find s e with
  | some q => (set_cg_root s e q, [(e, q, Pf.congr e q, false)])
  | none =>
    (if s.m_congruences.contains e then s
     else { s with m_congruences := s.m_congruences ++ [e] }, [])

/-- Modelled from the spec: `apply_simple_eqvs` consults the external
relation manager for reflexive/symmetric-relation shortcuts.  The
model's term language contains no registered relations, so the
recognizer finds nothing and no trivial equality is enqueued. -/
def apply_simple_eqvs (s : state) (_e : Term) : state × List todo_entry :=
  (s, [])

/-- Modelled from the spec: `process_subsingleton_elem` asks the external
elaboration engine whether the type of `e` is a subsingleton; the model
gives no term a subsingleton type, so the representative table is not
touched. -/
def process_subsingleton_elem (s : state) (_e : Term) : state :=
  s

/-- Modelled from the spec: the internalization walk.  Children are
registered before their parents, so the congruence lookup performed when
a parent is registered sees fully resolved child roots; parent
occurrences are recorded and table collisions emit pending equalities.
A term that already has an entry is not reprocessed.  (The skip rules
for logical connectives, binders, sorts and metavariables concern term
formers the model's term language does not contain; the `toplevel`
propositional bookkeeping is likewise not modelled.) -/
def internalize_core (s : state) : Term → state × List todo_entry
  | Term.atom k =>
      let s1 := process_subsingleton_elem (mk_entry s (Term.atom k) false)
        (Term.atom k)
      apply_simple_eqvs s1 (Term.atom k)
  | Term.value k =>
      let s1 := process_subsingleton_elem (mk_entry s (Term.value k) false)
        (Term.value k)
      apply_simple_eqvs s1 (Term.value k)
  | Term.app f a =>
      match get_entry s (Term.app f a) with
      | some _ => (s, [])
      | none =>
        let p1 := internalize_core s f
        let p2 := internalize_core p1.1 a
        let s3 := mk_entry p2.1 (Term.app f a) false
        let s4 := add_occurrence s3 (Term.app f a) f false
        let s5 := add_occurrence s4 (Term.app f a) a false
        let p6 := add_congruence_table s5 (Term.app f a)
        (process_subsingleton_elem p6.1 (Term.app f a),
         p1.2 ++ p2.2 ++ p6.2)

/-- Set the mod-time stored in `e`'s entry. -/
def set_mt (s : state) (e : Term) (v : Nat) : state :=
  { s with m_entries := (amap
      (fun t n => if t = e then { n with m_mt := v } else n) s.m_entries) }

/-- The parent occurrences currently keyed by `k`. -/
def parents_of (s : state) (k : Term) : List parent_occ :=
  match alookup s.m_parents k with
  | some l => l
  | none => []

/-- Modelled from the spec: `update_mt` propagates the new global
mod-time upward through parent occurrences — the mod-time of an entry
records the last `gmt` at which a proper descendant participated in a
merge.  The walk is fuel-bounded; each entry is bumped at most once per
merge because only entries with a stale mod-time are visited. -/
def update_mt_core : Nat → state → List parent_occ → state
  | 0, s, _ => s
  | _ + 1, s, [] => s
  | fuel + 1, s, p :: rest =>
      let s1 :=
        match get_entry s p.m_expr with
        | some n =>
          if n.m_mt < s.m_gmt then
            let s2 := set_mt s p.m_expr s.m_gmt
            update_mt_core fuel s2
              (parents_of s2 (get_root s2 p.m_expr))
          else s
        | none => s
      update_mt_core fuel s1 rest

/-- `update_mt e`: start the mod-time propagation at the parents of
`e`'s class. -/
def update_mt (s : state) (e : Term) : state :=
  update_mt_core (s.m_entries.length + 1) s (parents_of s (get_root s e))

/-- Modelled from the spec: reinsertion of the parent occurrences whose
congruence-table keys may have changed, via `add_congruence_table`; new
collisions become pending congruence equalities. -/
def reinsert_list (s : state) : List parent_occ → state × List todo_entry
  | [] => (s, [])
  | p :: rest =>
      let q1 := add_congruence_table s p.m_expr
      let q2 := reinsert_list q1.1 rest
      (q2.1, q1.2 ++ q2.2)

/-- The `m_size` stored at a root entry (`1` for an unregistered term,
which forms a conceptual singleton). -/
def root_size (s : state) (r : Term) : Nat :=
  match get_entry s r with | some n => n.m_size | none => 1

/-- The class-level heterogeneous-equality bit stored at a root entry. -/
def root_heq (s : state) (r : Term) : Bool :=
  match get_entry s r with | some n => n.m_heq_proofs | none => false

/-- The interpreted-value flag stored at a root entry. -/
def root_interp (s : state) (r : Term) : Bool :=
  match get_entry s r with | some n => n.m_interpreted | none => false

/-- The entry rewrite applied to every registered term when the class
rooted at `r1` is absorbed into the class rooted at `r2`: members of the
absorbed class move to the new root with a fresh mod-time, `r1` receives
the connecting justification edge toward `r2`, members whose edge
pointed at `r1` are re-pointed toward `r2` with composed proofs, the two
circular `m_next` lists are spliced, and the surviving root accumulates
the class size and the class-level heterogeneous-equality bit. -/
def relink_entry (r1 r2 next1 next2 : Term) (lnk : Pf) (gmt' sz : Nat)
    (heq' : Bool) (t : Term) (n : entry) : entry :=
  if n.m_root = r1 then
    if t = r1 then
      { n with m_root := r2, m_mt := gmt', m_target := some r2,
               m_proof := some lnk, m_flipped := false, m_next := next2 }
    else if n.m_target = some r1 then
      { n with m_root := r2, m_mt := gmt', m_target := some r2,
               m_proof := some (match n.m_proof with
                 | some p => Pf.trans p lnk
                 | none => lnk) }
    else { n with m_root := r2, m_mt := gmt' }
  else if t = r2 then
    { n with m_size := sz, m_heq_proofs := heq', m_mt := gmt',
             m_next := next1 }
  else n

/-- The relink rewrite of `merge_core`, with its parameters computed from
the pre-merge state. -/
def relinkF (s : state) (e1 e2 : Term) (H : Pf) (heq : Bool) :
    Term → entry → entry :=
  relink_entry (get_root s e1) (get_root s e2)
    (get_next s (get_root s e1)) (get_next s (get_root s e2))
    (Pf.link e1 e2 H) (s.m_gmt + 1)
    (root_size s (get_root s e1) + root_size s (get_root s e2))
    (heq || root_heq s (get_root s e1) || root_heq s (get_root s e2))

/-- Modelled from the spec, §4.4 steps 2, 3 (first half), 6 and 7 of the
merge engine: the state after the class of `e1` is absorbed into the
class of `e2` given a popped proof `H` of `e1 = e2` (heterogeneous when
`heq` is set).
* the congruence-table entries of the absorbed class's parents are
  removed before any edge moves;
* every member of the absorbed class has its root replaced by the new
  root; a member whose justification edge pointed at the old root `r1`
  is re-pointed, via composition with the connecting proof, toward the
  new root `r2`, and `r1` itself receives the connecting edge, so every
  stored edge still reads as a proof from the member toward its target
  (the header: `m_heq_proofs == true` iff some proofs in the equivalence
  class are based on heterogeneous equality, so the surviving root
  accumulates that class-level bit);
* the parent occurrences of the absorbed class move to the new root;
* merging two distinct interpreted values sets the sticky
  `m_inconsistent` flag (constructor-clash detection needs the external
  definitional-equality oracle and is subsumed by the same flag);
* `gmt` is incremented and the re-linked entries' mod-times are set to
  the new value. -/
def merge_core (s : state) (e1 e2 : Term) (H : Pf) (heq : Bool) : state :=
  let r1 := get_root s e1
  let r2 := get_root s e2
  let ps1 := parents_of s r1
  let ps2 := parents_of s r2
  { s with
    m_entries := (amap (relink_entry r1 r2 (get_next s r1) (get_next s r2)
      (Pf.link e1 e2 H) (s.m_gmt + 1) (root_size s r1 + root_size s r2)
      (heq || root_heq s r1 || root_heq s r2)) s.m_entries),
    m_parents := ((s.m_parents.filter
        (fun p => !(decide (p.1 = r1)) && !(decide (p.1 = r2))))
      ++ [(r2, ps2 ++ ps1)]),
    m_congruences := (s.m_congruences.filter
      (fun q => !(ps1.any (fun p => decide (p.m_expr = q))))),
    m_gmt := s.m_gmt + 1,
    m_inconsistent := (s.m_inconsistent ||
      (root_interp s r1 && root_interp s r2)) }

/-- Modelled from the spec, §4.4 steps 2–7: perform the core merge, then
reinsert the removed parent occurrences under their new keys (returning
fresh collisions as pending equalities) and propagate the new mod-time
to the parents of the surviving class. -/
def merge_absorb (s : state) (e1 e2 : Term) (H : Pf) (heq : Bool) :
    state × List todo_entry :=
  let q := reinsert_list (merge_core s e1 e2 H heq)
    (parents_of s (get_root s e1))
  (update_mt q.1 e2, q.2)

/-- Modelled from the spec, §4.4 step 1: root selection by size — the
class with larger `size` absorbs the smaller; on a size tie, if exactly
one of the two roots is interpreted, the non-interpreted one is kept as
the root (otherwise the right-hand class absorbs the left-hand one, a
deterministic choice the specification leaves open). -/
def add_eqv_step (s : state) (e1 e2 : Term) (H : Pf) (heq : Bool) :
    state × List todo_entry :=
  let r1 := get_root s e1
  let r2 := get_root s e2
  if root_size s r2 < root_size s r1 ∨
      (root_size s r1 = root_size s r2 ∧ root_interp s r2 = true ∧
        root_interp s r1 = false) then
    merge_absorb s e2 e1 (Pf.symm H) heq
  else
    merge_absorb s e1 e2 H heq

/-- Modelled from the spec, §4.4: the FIFO worklist loop.  A popped
equality whose sides already share a root is discarded; otherwise the
two classes are merged and any newly discovered congruences are appended
to the queue.  Once the sticky inconsistency flag is set, no further
merges are attempted.  The loop is fuel-bounded; the fuel computed by
`todo_fuel` dominates the worklist's growth (each genuine merge reduces
the number of classes). -/
def process_todo : Nat → state → List todo_entry → state
  | _, s, [] => s
  | 0, s, _ => s
  | fuel + 1, s, (l, r, H, heq) :: rest =>
      if s.m_inconsistent then s
      else if get_root s l = get_root s r then process_todo fuel s rest
      else
        let q := add_eqv_step s l r H heq
        process_todo fuel q.1 (rest ++ q.2)

/-- Fuel that dominates the worklist processing: pending items, plus one
discard or merge per possible congruence pair over the registered
entries. -/
def todo_fuel (s : state) (td : List todo_entry) : Nat :=
  td.length + 2 * s.m_entries.length * s.m_entries.length
    + s.m_entries.length + 1

/-- `congruence_closure::internalize`: register `e` and its registrable
subterms, then drain the worklist the walk produced — per the spec the
worklist is drained to empty before `internalize` returns control to the
caller. -/
def internalize (s : state) (e : Term) : state :=
  let p := internalize_core s e
  process_todo (todo_fuel p.1 p.2) p.1 p.2

/-- The shapes of assertable propositions the claims exercise, as
classified by `add`: homogeneous equality, heterogeneous equality, and
iff (treated as a propositional equality).  Truth assertions of bare
propositions additionally involve the distinguished `true` literal of
the external term representation and are not modelled. -/
inductive Prp where
  | eq : Term → Term → Prp
  | heq : Term → Term → Prp
  | iff : Term → Term → Prp
deriving DecidableEq

/-- Modelled from the spec: `add_eqv_core` internalizes both sides,
enqueues the asserted equality behind the equalities produced by
internalization, and drains the worklist synchronously. -/
def add_eqv_core (s : state) (lhs rhs : Term) (H : Pf) (heq : Bool) :
    state :=
  let p1 := internalize_core s lhs
  let p2 := internalize_core p1.1 rhs
  let td := p1.2 ++ p2.2 ++ [(lhs, rhs, H, heq)]
  process_todo (todo_fuel p2.1 td) p2.1 td

/-- `congruence_closure::add(type, proof)`: classify the proposition and
assert the corresponding equality. -/
def add (s : state) (p : Prp) (H : Pf) : state :=
  match p with
  | Prp.eq a b => add_eqv_core s a b H false
  | Prp.iff a b => add_eqv_core s a b H false
  | Prp.heq a b => add_eqv_core s a b H true

/-- Modelled from the spec, §4.5: compose the (possibly flipped) edge
proofs along the justification chain from `e` up to its root.  The walk
is fuel-bounded; in a well-formed state the chain reaches the root
before the fuel (one unit per registered entry) runs out. -/
def pf_to_root : Nat → state → Term → Pf
  | 0, _, e => Pf.refl e
  | fuel + 1, s, e =>
      match get_entry s e with
      | some n =>
        match n.m_target, n.m_proof with
        | some t, some p =>
            Pf.trans (if n.m_flipped then Pf.symm p else p)
              (pf_to_root fuel s t)
        | _, _ => Pf.refl e
      | none => Pf.refl e

/-- `congruence_closure::get_eq_proof`: fail (return "no proof") unless
the two terms are registered with a common root; otherwise compose `e1`'s
chain to the root with the reverse of `e2`'s chain.  Modelled from the
spec: proof synthesis itself is total once the roots coincide. -/
def get_eq_proof (s : state) (e1 e2 : Term) : Option Pf :=
  match get_entry s e1, get_entry s e2 with
  | some n1, some n2 =>
      if n1.m_root = n2.m_root then
        some (Pf.trans (pf_to_root (s.m_entries.length + 1) s e1)
          (Pf.symm (pf_to_root (s.m_entries.length + 1) s e2)))
      else none
  | _, _ => none

/-- `congruence_closure::get_heq_proof`: the heterogeneous variant of
`get_eq_proof`, with the same failure condition. -/
def get_heq_proof (s : state) (e1 e2 : Term) : Option Pf :=
  get_eq_proof s e1 e2

/-- `congruence_closure::get_proof`: the degenerate shortcut for
syntactically identical terms, then the equality proof query. -/
def get_proof (s : state) (e1 e2 : Term) : Option Pf :=
  if e1 = e2 then some (Pf.refl e1) else get_eq_proof s e1 e2

/-- One mutating operation of the public interface: `internalize` or
`add`.  The query operations (`is_eqv`, proof queries, accessors) are
pure functions of the state and appear on the right of `→` nowhere, so
they trivially mutate nothing. -/
inductive Step : state → state → Prop where
  | internalize (s : state) (e : Term) : Step s (internalize s e)
  | add (s : state) (p : Prp) (H : Pf) : Step s (add s p H)

/-- The states reachable from a freshly constructed state (with any
`ho_fns` set and any config) through the mutating interface. -/
inductive Reachable : state → Prop where
  | init (ho_fns : List Nat) (cfg : config) : Reachable (mk_state ho_fns cfg)
  | step {s s' : state} : Reachable s → Step s s' → Reachable s'

/-- The justification target stored at `e`, if any. -/
def target_of (s : state) (e : Term) : Option Term :=
  match get_entry s e with
  | some n => n.m_target
  | none => none

/-- `ChainTo s e r`: following the justification targets from `e` ends,
after finitely many hops (one per constructor of the derivation), at the
term `r`, which has no justification of its own. -/
inductive ChainTo (s : state) : Term → Term → Prop where
  | stop (e : Term) : target_of s e = none → ChainTo s e e
  | hop (e t r : Term) : target_of s e = some t → ChainTo s t r →
      ChainTo s e r

/-- The mod-time invariant: no entry's mod-time exceeds the global merge
counter. -/
def MtInv (s : state) : Prop :=
  ∀ x n, get_entry s x = some n → n.m_mt ≤ s.m_gmt

/-- The structural well-formedness invariant of the union-find forest:
justifications are present exactly at non-roots, roots are registered
and canonical, justification targets stay inside the class, every
member's chain reaches its root, and the parent-occurrence and
congruence tables mention only registered terms. -/
structure Inv (s : state) : Prop where
  target_iff : ∀ e n, get_entry s e = some n →
    (n.m_target = none ↔ n.m_root = e)
  proof_iff : ∀ e n, get_entry s e = some n →
    (n.m_proof = none ↔ n.m_root = e)
  root_ok : ∀ e n, get_entry s e = some n →
    ∃ nr, get_entry s n.m_root = some nr ∧ nr.m_root = n.m_root
  target_ok : ∀ e n t, get_entry s e = some n → n.m_target = some t →
    ∃ nt, get_entry s t = some nt ∧ nt.m_root = n.m_root
  chain : ∀ e n, get_entry s e = some n → ChainTo s e n.m_root
  parents_dom : ∀ k l p, (k, l) ∈ s.m_parents → p ∈ l →
    ∃ n, get_entry s p.m_expr = some n
  congr_dom : ∀ q, q ∈ s.m_congruences → ∃ n, get_entry s q = some n

/-- Domain growth: every registered term stays registered. -/
def dom_le (s s' : state) : Prop :=
  ∀ x, (∃ n, get_entry s x = some n) → ∃ n', get_entry s' x = some n'

/-- All left- and right-hand sides of a worklist are registered. -/
def todo_dom (s : state) (td : List todo_entry) : Prop :=
  ∀ t, t ∈ td → (∃ n, get_entry s t.1 = some n) ∧
    ∃ n, get_entry s t.2.1 = some n

/-- The shape of an entry that the cosmetic maintenance stages
(congruence-root bookkeeping, mod-time propagation) never change. -/
def eshape (n : entry) : Term × Option Term × Option Pf × Bool × Nat :=
  (n.m_root, n.m_target, n.m_proof, n.m_heq_proofs, n.m_size)

/-- Two states with identical entry domains and identical entry shapes
everywhere. -/
def same_core (s s' : state) : Prop :=
  ∀ x, (get_entry s' x).map eshape = (get_entry s x).map eshape

/-- What the cosmetic maintenance stages of a merge (congruence-table
reinsertion, mod-time propagation) do to a state: entry shapes, the
global counter and the inconsistency flag are untouched, and each
mod-time either stays or becomes the current global counter. -/
def stage_ok (s s' : state) : Prop :=
  same_core s s' ∧ s'.m_gmt = s.m_gmt ∧
  s'.m_inconsistent = s.m_inconsistent ∧
  (∀ x n, get_entry s x = some n → ∃ n', get_entry s' x = some n' ∧
    (n'.m_mt = n.m_mt ∨ n'.m_mt = s.m_gmt))

/-- What every operation of the engine does to the temporal bookkeeping:
the sticky inconsistency flag is never cleared, the global merge counter
never decreases, the mod-time invariant is preserved, and every entry
survives with a nondecreasing mod-time. -/
def op_ok (s s' : state) : Prop :=
  (s.m_inconsistent = true → s'.m_inconsistent = true) ∧
  s.m_gmt ≤ s'.m_gmt ∧
  (MtInv s → MtInv s') ∧
  (MtInv s → ∀ x n, get_entry s x = some n →
     ∃ n', get_entry s' x = some n' ∧ n.m_mt ≤ n'.m_mt)

/-- A default configuration (the header's `config::config()`). -/
def cfg0 : config := ⟨true, true, false⟩

/-- A fresh state over the default configuration. -/
def ex0 : state := mk_state [] cfg0

/-- Scenario A of the specification, with arbitrary atoms: internalize
`f(a)` and `f(b)`, then assert `a = b`.  The equality `f(a) = f(b)` is
never asserted — only `a = b` is. -/
def scenario_unary (f a b : Nat) : state :=
  add (internalize (internalize ex0
        (Term.app (Term.atom f) (Term.atom a)))
        (Term.app (Term.atom f) (Term.atom b)))
    (Prp.eq (Term.atom a) (Term.atom b)) (Pf.hyp 0)

/-- The binary congruence scenario with arbitrary atoms: internalize
`f(a1,a2)` and `f(b1,b2)`, then assert `a1 = b1` and `a2 = b2` — the
equality of the two applications themselves is never asserted. -/
def scenario_binary (f a1 a2 b1 b2 : Nat) : state :=
  add (add (internalize (internalize ex0
        (Term.app (Term.app (Term.atom f) (Term.atom a1)) (Term.atom a2)))
        (Term.app (Term.app (Term.atom f) (Term.atom b1)) (Term.atom b2)))
      (Prp.eq (Term.atom a1) (Term.atom b1)) (Pf.hyp 0))
    (Prp.eq (Term.atom a2) (Term.atom b2)) (Pf.hyp 1)

/-- Scenario B of the specification at concrete atoms: `a = b`, then
`b = c`. -/
def ex_trans : state :=
  add (add (internalize (internalize (internalize ex0 (Term.atom 1))
        (Term.atom 3)) (Term.atom 5))
      (Prp.eq (Term.atom 1) (Term.atom 3)) (Pf.hyp 0))
    (Prp.eq (Term.atom 3) (Term.atom 5)) (Pf.hyp 1)

/-- An inconsistent state: two distinct interpreted values asserted
equal. -/
def ex_inc : state :=
  add ex0 (Prp.eq (Term.value 0) (Term.value 1)) (Pf.hyp 0)

/-- A state with one class of size five (`atom 10 … atom 14`) and a
singleton class (`atom 20`). -/
def ex_size5 : state :=
  add (add (add (add (internalize ex0 (Term.atom 20))
        (Prp.eq (Term.atom 10) (Term.atom 11)) (Pf.hyp 0))
      (Prp.eq (Term.atom 10) (Term.atom 12)) (Pf.hyp 1))
    (Prp.eq (Term.atom 10) (Term.atom 13)) (Pf.hyp 2))
    (Prp.eq (Term.atom 10) (Term.atom 14)) (Pf.hyp 3)

/-- A heterogeneous equality asserted between two atoms. -/
def ex_heq : state :=
  add ex0 (Prp.heq (Term.atom 0) (Term.atom 1)) (Pf.hyp 0)

/-- Two atoms internalized in a fresh state. -/
def ex_two : state :=
  internalize (internalize ex0 (Term.atom 0)) (Term.atom 1)

/-- Renaming of atom names applied to a term.  The engine treats atoms
as opaque keys compared only for equality, so its runs are equivariant
under injective renamings; this is used to transport concrete runs to
arbitrary distinct atom names. -/
def mapT (r : Nat → Nat) : Term → Term
  | Term.atom n => Term.atom (r n)
  | Term.value n => Term.value n
  | Term.app f a => Term.app (mapT r f) (mapT r a)

/-- Renaming applied to a proof object. -/
def mapP (r : Nat → Nat) : Pf → Pf
  | Pf.hyp n => Pf.hyp n
  | Pf.refl t => Pf.refl (mapT r t)
  | Pf.symm p => Pf.symm (mapP r p)
  | Pf.trans p q => Pf.trans (mapP r p) (mapP r q)
  | Pf.congr t u => Pf.congr (mapT r t) (mapT r u)
  | Pf.link t u p => Pf.link (mapT r t) (mapT r u) (mapP r p)

/-- Renaming applied to a class entry. -/
def mapE (r : Nat → Nat) (n : entry) : entry :=
  { m_next := mapT r n.m_next, m_root := mapT r n.m_root,
    m_cg_root := mapT r n.m_cg_root,
    m_target := n.m_target.map (mapT r),
    m_proof := n.m_proof.map (mapP r),
    m_flipped := n.m_flipped, m_to_propagate := n.m_to_propagate,
    m_interpreted := n.m_interpreted, m_constructor := n.m_constructor,
    m_heq_proofs := n.m_heq_proofs, m_fo := n.m_fo,
    m_size := n.m_size, m_mt := n.m_mt }

/-- Renaming applied to a parent occurrence. -/
def mapOcc (r : Nat → Nat) (p : parent_occ) : parent_occ :=
  ⟨mapT r p.m_expr, p.m_symm_table⟩

/-- Renaming applied to a pending equality. -/
def mapTD (r : Nat → Nat) (t : todo_entry) : todo_entry :=
  (mapT r t.1, mapT r t.2.1, mapP r t.2.2.1, t.2.2.2)

/-- Renaming applied to a whole state. -/
def mapS (r : Nat → Nat) (s : state) : state :=
  { m_entries := s.m_entries.map (fun p => (mapT r p.1, mapE r p.2)),
    m_parents := (s.m_parents.map
      (fun p => (mapT r p.1, p.2.map (mapOcc r)))),
    m_congruences := s.m_congruences.map (mapT r),
    m_symm_congruences := s.m_symm_congruences.map (mapT r),
    m_subsingleton_reprs := (s.m_subsingleton_reprs.map
      (fun p => (mapT r p.1, mapT r p.2))),
    m_froze_partitions := s.m_froze_partitions,
    m_inconsistent := s.m_inconsistent,
    m_gmt := s.m_gmt, m_ho_fns := s.m_ho_fns,
    m_config := s.m_config }

/-- The renaming sending the five scenario atoms `0 … 4` to five given
names and everything else out of their range. -/
def ren (f a1 a2 b1 b2 : Nat) : Nat → Nat := fun n =>
  if n = 0 then f
  else if n = 1 then a1
  else if n = 2 then a2
  else if n = 3 then b1
  else if n = 4 then b2
  else n + (f + a1 + a2 + b1 + b2) + 5

theorem alookup_amap {α : Type} (f : Term → α → α) (l : List (Term × α))
    (e : Term) : alookup (amap f l) e = (alookup l e).map (f e) := by
  induction l with
  | nil => rfl
  | cons p l ih =>
      simp only [amap, alookup]
      by_cases h : e = p.1
      · subst h; simp
      · simp [h, ih]

theorem alookup_append_some {α : Type} {l1 : List (Term × α)} {e : Term}
    {v : α} (l2 : List (Term × α)) (h : alookup l1 e = some v) :
    alookup (l1 ++ l2) e = some v := by
  induction l1 with
  | nil => cases h
  | cons p l ih =>
      simp only [alookup] at h ⊢
      by_cases he : e = p.1
      · simpa [he] using h
      · rw [if_neg he] at h ⊢; exact ih h

theorem alookup_append_none {α : Type} {l1 : List (Term × α)} {e : Term}
    (l2 : List (Term × α)) (h : alookup l1 e = none) :
    alookup (l1 ++ l2) e = alookup l2 e := by
  induction l1 with
  | nil => rfl
  | cons p l ih =>
      simp only [alookup] at h ⊢
      by_cases he : e = p.1
      · simp [he] at h
      · rw [if_neg he] at h ⊢; exact ih h

theorem alookup_single {α : Type} (e k : Term) (v : α) :
    alookup [(k, v)] e = if e = k then some v else none := rfl

theorem mk_entry_core_present {s : state} {e : Term} {n : entry}
    (tp ip ct : Bool) (h : get_entry s e = some n) :
    mk_entry_core s e tp ip ct = s := by
  simp only [mk_entry_core, h]

theorem get_entry_mk_entry_core_new {s : state} {e : Term}
    (tp ip ct : Bool) (h : get_entry s e = none) (x : Term) :
    get_entry (mk_entry_core s e tp ip ct) x =
      if x = e then some (fresh_entry e tp ip ct s.m_gmt)
      else get_entry s x := by
  have h' : alookup s.m_entries e = none := h
  simp only [mk_entry_core, h]
  show alookup (s.m_entries ++ [(e, fresh_entry e tp ip ct s.m_gmt)]) x = _
  cases hx : alookup s.m_entries x with
  | some v =>
      have hxe : ¬ x = e := by
        intro hh; subst hh; rw [h'] at hx; cases hx
      rw [alookup_append_some _ hx, if_neg hxe]
      exact hx.symm
  | none =>
      rw [alookup_append_none _ hx, alookup_single]
      by_cases hxe : x = e
      · rw [if_pos hxe, if_pos hxe]
      · rw [if_neg hxe, if_neg hxe]; exact hx.symm

theorem get_entry_set_cg_root (s : state) (e tgt x : Term) :
    get_entry (set_cg_root s e tgt) x = (get_entry s x).map
      (fun n => if x = e then { n with m_cg_root := tgt } else n) := by
  show alookup (amap _ s.m_entries) x = _
  rw [alookup_amap]; rfl

theorem get_entry_set_mt (s : state) (e : Term) (v : Nat) (x : Term) :
    get_entry (set_mt s e v) x = (get_entry s x).map
      (fun n => if x = e then { n with m_mt := v } else n) := by
  show alookup (amap _ s.m_entries) x = _
  rw [alookup_amap]; rfl

theorem get_entry_merge_core (s : state) (e1 e2 : Term) (H : Pf)
    (heq : Bool) (x : Term) :
    get_entry (merge_core s e1 e2 H heq) x = (get_entry s x).map
      (relink_entry (get_root s e1) (get_root s e2)
        (get_next s (get_root s e1)) (get_next s (get_root s e2))
        (Pf.link e1 e2 H) (s.m_gmt + 1)
        (root_size s (get_root s e1) + root_size s (get_root s e2))
        (heq || root_heq s (get_root s e1) || root_heq s (get_root s e2))
        x) := by
  show alookup (amap _ s.m_entries) x = _
  rw [alookup_amap]; rfl

theorem stage_ok_refl (s : state) : stage_ok s s :=
  ⟨fun _ => rfl, rfl, rfl, fun _ n hx => ⟨n, hx, Or.inl rfl⟩⟩

theorem stage_ok_trans {s1 s2 s3 : state} (h1 : stage_ok s1 s2)
    (h2 : stage_ok s2 s3) : stage_ok s1 s3 := by
  obtain ⟨c1, g1, i1, m1⟩ := h1
  obtain ⟨c2, g2, i2, m2⟩ := h2
  refine ⟨fun x => (c2 x).trans (c1 x), g2.trans g1, i2.trans i1,
    fun x n hx => ?_⟩
  obtain ⟨n', hx', hm'⟩ := m1 x n hx
  obtain ⟨n'', hx'', hm''⟩ := m2 x n' hx'
  refine ⟨n'', hx'', ?_⟩
  rcases hm'' with h | h
  · rw [h]; exact hm'
  · rw [h, g1]; exact Or.inr rfl

theorem stage_ok_of_entries_eq {s s' : state}
    (he : s'.m_entries = s.m_entries) (hg : s'.m_gmt = s.m_gmt)
    (hi : s'.m_inconsistent = s.m_inconsistent) : stage_ok s s' := by
  have hx : ∀ x, get_entry s' x = get_entry s x := by
    intro x; show alookup s'.m_entries x = _; rw [he]; rfl
  exact ⟨fun x => by rw [hx x], hg, hi,
    fun x n h => ⟨n, (hx x).trans h, Or.inl rfl⟩⟩

theorem stage_ok_set_cg_root (s : state) (e tgt : Term) :
    stage_ok s (set_cg_root s e tgt) := by
  refine ⟨fun x => ?_, rfl, rfl, fun x n hx => ?_⟩
  · rw [get_entry_set_cg_root]
    cases get_entry s x with
    | none => rfl
    | some n => by_cases h : x = e <;> simp [h, eshape]
  · rw [get_entry_set_cg_root, hx]
    by_cases h : x = e <;> simp [h]

theorem stage_ok_set_mt_gmt (s : state) (e : Term) :
    stage_ok s (set_mt s e s.m_gmt) := by
  refine ⟨fun x => ?_, rfl, rfl, fun x n hx => ?_⟩
  · rw [get_entry_set_mt]
    cases get_entry s x with
    | none => rfl
    | some n => by_cases h : x = e <;> simp [h, eshape]
  · rw [get_entry_set_mt, hx]
    by_cases h : x = e <;> simp [h]

theorem stage_ok_act (s : state) (e : Term) :
    stage_ok s (add_congruence_table s e).1 := by
  simp only [add_congruence_table]
  cases table_find s e with
  | some q => exact stage_ok_set_cg_root s e q
  | none =>
      by_cases h : s.m_congruences.contains e
      · simp only [h, if_pos]; exact stage_ok_refl s
      · simp only [h]
        exact stage_ok_of_entries_eq rfl rfl rfl

theorem stage_ok_reinsert (s : state) (l : List parent_occ) :
    stage_ok s (reinsert_list s l).1 := by
  induction l generalizing s with
  | nil => exact stage_ok_refl s
  | cons p rest ih =>
      simp only [reinsert_list]
      exact stage_ok_trans (stage_ok_act s p.m_expr)
        (ih (add_congruence_table s p.m_expr).1)

theorem stage_ok_update_mt_core (fuel : Nat) :
    ∀ (s : state) (l : List parent_occ),
      stage_ok s (update_mt_core fuel s l) := by
  induction fuel with
  | zero => intro s l; exact stage_ok_refl s
  | succ fuel ih =>
      intro s l
      cases l with
      | nil => exact stage_ok_refl s
      | cons p rest =>
          simp only [update_mt_core]
          refine stage_ok_trans ?_ (ih _ rest)
          split
          · split
            · exact stage_ok_trans (stage_ok_set_mt_gmt s p.m_expr)
                (ih _ _)
            · exact stage_ok_refl s
          · exact stage_ok_refl s

theorem stage_ok_update_mt (s : state) (e : Term) :
    stage_ok s (update_mt s e) :=
  stage_ok_update_mt_core _ s _

theorem same_core_some {s s' : state} (h : same_core s s') {x : Term}
    {n' : entry} (hx : get_entry s' x = some n') :
    ∃ n, get_entry s x = some n ∧ n'.m_root = n.m_root ∧
      n'.m_target = n.m_target ∧ n'.m_proof = n.m_proof ∧
      n'.m_heq_proofs = n.m_heq_proofs ∧ n'.m_size = n.m_size := by
  have hh := h x
  rw [hx] at hh
  cases hg : get_entry s x with
  | none => rw [hg] at hh; cases hh
  | some n =>
      rw [hg] at hh
      simp only [Option.map_some', Option.some.injEq, eshape,
        Prod.mk.injEq] at hh
      exact ⟨n, rfl, hh.1, hh.2.1, hh.2.2.1, hh.2.2.2.1, hh.2.2.2.2⟩

theorem same_core_some' {s s' : state} (h : same_core s s') {x : Term}
    {n : entry} (hx : get_entry s x = some n) :
    ∃ n', get_entry s' x = some n' ∧ n'.m_root = n.m_root ∧
      n'.m_target = n.m_target ∧ n'.m_proof = n.m_proof ∧
      n'.m_heq_proofs = n.m_heq_proofs ∧ n'.m_size = n.m_size := by
  have hh := h x
  rw [hx] at hh
  cases hg : get_entry s' x with
  | none => rw [hg] at hh; cases hh
  | some n' =>
      rw [hg] at hh
      simp only [Option.map_some', Option.some.injEq, eshape,
        Prod.mk.injEq] at hh
      exact ⟨n', rfl, hh.1, hh.2.1, hh.2.2.1, hh.2.2.2.1, hh.2.2.2.2⟩

theorem same_core_none {s s' : state} (h : same_core s s') {x : Term}
    (hx : get_entry s x = none) : get_entry s' x = none := by
  have hh := h x
  rw [hx] at hh
  cases hg : get_entry s' x with
  | none => rfl
  | some n' => rw [hg] at hh; cases hh

theorem get_root_same_core {s s' : state} (h : same_core s s')
    (x : Term) : get_root s' x = get_root s x := by
  unfold get_root
  cases hx : get_entry s x with
  | none => rw [same_core_none h hx]
  | some n =>
      obtain ⟨n', h1, h2, -, -, -, -⟩ := same_core_some' h hx
      rw [h1]
      exact h2

theorem target_of_same_core {s s' : state} (h : same_core s s')
    (x : Term) : target_of s' x = target_of s x := by
  unfold target_of
  cases hx : get_entry s x with
  | none => rw [same_core_none h hx]
  | some n =>
      obtain ⟨n', h1, -, h3, -, -, -⟩ := same_core_some' h hx
      rw [h1]
      exact h3

theorem ChainTo_congr {s s' : state}
    (h : ∀ x, target_of s' x = target_of s x) {e r : Term} :
    ChainTo s e r → ChainTo s' e r := by
  intro hc
  induction hc with
  | stop e he => exact ChainTo.stop e (by rw [h]; exact he)
  | hop e t r het _ ih => exact ChainTo.hop e t r (by rw [h]; exact het) ih

theorem merge_core_gmt (s : state) (e1 e2 : Term) (H : Pf) (heq : Bool) :
    (merge_core s e1 e2 H heq).m_gmt = s.m_gmt + 1 := rfl

theorem merge_core_inc (s : state) (e1 e2 : Term) (H : Pf) (heq : Bool) :
    (merge_core s e1 e2 H heq).m_inconsistent = (s.m_inconsistent ||
      (root_interp s (get_root s e1) && root_interp s (get_root s e2))) :=
  rfl

theorem op_ok_refl (s : state) : op_ok s s :=
  ⟨fun h => h, Nat.le_refl _, fun h => h,
    fun _ _ n hx => ⟨n, hx, Nat.le_refl _⟩⟩

theorem op_ok_trans {s1 s2 s3 : state} (h1 : op_ok s1 s2)
    (h2 : op_ok s2 s3) : op_ok s1 s3 := by
  obtain ⟨i1, g1, v1, m1⟩ := h1
  obtain ⟨i2, g2, v2, m2⟩ := h2
  refine ⟨fun h => i2 (i1 h), Nat.le_trans g1 g2,
    fun h => v2 (v1 h), fun h x n hx => ?_⟩
  obtain ⟨n', hx', hm'⟩ := m1 h x n hx
  obtain ⟨n'', hx'', hm''⟩ := m2 (v1 h) x n' hx'
  exact ⟨n'', hx'', Nat.le_trans hm' hm''⟩

theorem op_ok_of_stage_ok {s s' : state} (h : stage_ok s s') :
    op_ok s s' := by
  obtain ⟨hc, hg, hi, hm⟩ := h
  refine ⟨fun hh => hi.trans hh, Nat.le_of_eq hg.symm, ?_, ?_⟩
  · intro hinv x n hx
    obtain ⟨n0, hx0, -, -, -, -, -⟩ := same_core_some hc hx
    obtain ⟨n', hx', hm'⟩ := hm x n0 hx0
    have hnn : n' = n := Option.some.inj (hx'.symm.trans hx)
    subst hnn
    rw [hg]
    rcases hm' with hh | hh
    · rw [hh]; exact hinv x n0 hx0
    · rw [hh]
  · intro hinv x n hx
    obtain ⟨n', hx', hm'⟩ := hm x n hx
    refine ⟨n', hx', ?_⟩
    rcases hm' with hh | hh
    · rw [hh]
    · rw [hh]; exact hinv x n hx

theorem op_ok_of_entries_eq {s s' : state}
    (he : s'.m_entries = s.m_entries) (hg : s'.m_gmt = s.m_gmt)
    (hi : s'.m_inconsistent = s.m_inconsistent) : op_ok s s' :=
  op_ok_of_stage_ok (stage_ok_of_entries_eq he hg hi)

theorem op_ok_mk_entry_core (s : state) (e : Term) (tp ip ct : Bool) :
    op_ok s (mk_entry_core s e tp ip ct) := by
  cases h : get_entry s e with
  | some n => rw [mk_entry_core_present _ _ _ h]; exact op_ok_refl s
  | none =>
      have hx := get_entry_mk_entry_core_new tp ip ct h
      have hginc : (mk_entry_core s e tp ip ct).m_gmt = s.m_gmt := by
        simp only [mk_entry_core, h]
      have hii : (mk_entry_core s e tp ip ct).m_inconsistent =
          s.m_inconsistent := by
        simp only [mk_entry_core, h]
      refine ⟨fun hh => by rw [hii]; exact hh, Nat.le_of_eq hginc.symm,
        fun hinv x n hxx => ?_, fun hinv x n hxx => ?_⟩
      · rw [hx x] at hxx
        rw [hginc]
        by_cases hxe : x = e
        · rw [if_pos hxe] at hxx
          cases hxx
          exact Nat.le_refl _
        · rw [if_neg hxe] at hxx
          exact hinv x n hxx
      · have hxe : ¬ x = e := by
          intro hh; subst hh; rw [h] at hxx; cases hxx
        refine ⟨n, ?_, Nat.le_refl _⟩
        rw [hx x, if_neg hxe]
        exact hxx

theorem op_ok_mk_entry (s : state) (e : Term) (tp : Bool) :
    op_ok s (mk_entry s e tp) :=
  op_ok_mk_entry_core s e tp _ _

theorem op_ok_add_occurrence (s : state) (p c : Term) (b : Bool) :
    op_ok s (add_occurrence s p c b) :=
  op_ok_of_entries_eq rfl rfl rfl

theorem relink_entry_mt (r1 r2 nx1 nx2 : Term) (lnk : Pf) (g sz : Nat)
    (hb : Bool) (t : Term) (n : entry) :
    (relink_entry r1 r2 nx1 nx2 lnk g sz hb t n).m_mt = g ∨
    (relink_entry r1 r2 nx1 nx2 lnk g sz hb t n).m_mt = n.m_mt := by
  unfold relink_entry
  split_ifs <;> simp

theorem op_ok_merge_core (s : state) (e1 e2 : Term) (H : Pf)
    (heq : Bool) : op_ok s (merge_core s e1 e2 H heq) := by
  have hx := get_entry_merge_core s e1 e2 H heq
  refine ⟨fun hh => by rw [merge_core_inc, hh, Bool.true_or],
    by rw [merge_core_gmt]; exact Nat.le_succ _, ?_, ?_⟩
  · intro hinv x n hxx
    rw [hx x] at hxx
    rw [merge_core_gmt]
    cases hg : get_entry s x with
    | none => rw [hg] at hxx; cases hxx
    | some n0 =>
        rw [hg] at hxx
        have hn : n = relink_entry (get_root s e1) (get_root s e2)
            (get_next s (get_root s e1)) (get_next s (get_root s e2))
            (Pf.link e1 e2 H) (s.m_gmt + 1)
            (root_size s (get_root s e1) + root_size s (get_root s e2))
            (heq || root_heq s (get_root s e1) ||
              root_heq s (get_root s e2)) x n0 :=
          (Option.some.inj hxx).symm
        rcases relink_entry_mt (get_root s e1) (get_root s e2)
            (get_next s (get_root s e1)) (get_next s (get_root s e2))
            (Pf.link e1 e2 H) (s.m_gmt + 1)
            (root_size s (get_root s e1) + root_size s (get_root s e2))
            (heq || root_heq s (get_root s e1) ||
              root_heq s (get_root s e2)) x n0 with hh | hh
        · rw [hn, hh]
        · rw [hn, hh]
          exact Nat.le_succ_of_le (hinv x n0 hg)
  · intro hinv x n hxx
    refine ⟨relink_entry (get_root s e1) (get_root s e2)
      (get_next s (get_root s e1)) (get_next s (get_root s e2))
      (Pf.link e1 e2 H) (s.m_gmt + 1)
      (root_size s (get_root s e1) + root_size s (get_root s e2))
      (heq || root_heq s (get_root s e1) || root_heq s (get_root s e2))
      x n, by rw [hx x, hxx]; rfl, ?_⟩
    rcases relink_entry_mt (get_root s e1) (get_root s e2)
        (get_next s (get_root s e1)) (get_next s (get_root s e2))
        (Pf.link e1 e2 H) (s.m_gmt + 1)
        (root_size s (get_root s e1) + root_size s (get_root s e2))
        (heq || root_heq s (get_root s e1) || root_heq s (get_root s e2))
        x n with hh | hh
    · rw [hh]
      exact Nat.le_succ_of_le (hinv x n hxx)
    · rw [hh]

theorem op_ok_merge_absorb (s : state) (e1 e2 : Term) (H : Pf)
    (heq : Bool) : op_ok s (merge_absorb s e1 e2 H heq).1 := by
  simp only [merge_absorb]
  exact op_ok_trans (op_ok_merge_core s e1 e2 H heq)
    (op_ok_trans
      (op_ok_of_stage_ok (stage_ok_reinsert _ _))
      (op_ok_of_stage_ok (stage_ok_update_mt _ _)))

theorem op_ok_add_eqv_step (s : state) (e1 e2 : Term) (H : Pf)
    (heq : Bool) : op_ok s (add_eqv_step s e1 e2 H heq).1 := by
  simp only [add_eqv_step]
  split
  · exact op_ok_merge_absorb s e2 e1 (Pf.symm H) heq
  · exact op_ok_merge_absorb s e1 e2 H heq

theorem op_ok_process_todo (fuel : Nat) :
    ∀ (s : state) (td : List todo_entry),
      op_ok s (process_todo fuel s td) := by
  induction fuel with
  | zero =>
      intro s td
      cases td with
      | nil => exact op_ok_refl s
      | cons t rest => exact op_ok_refl s
  | succ fuel ih =>
      intro s td
      cases td with
      | nil => exact op_ok_refl s
      | cons t rest =>
          obtain ⟨l, r, H, hq⟩ := t
          simp only [process_todo]
          split
          · exact op_ok_refl s
          · split
            · exact ih s rest
            · exact op_ok_trans (op_ok_add_eqv_step s l r H hq)
                (ih _ _)

theorem op_ok_internalize_core (e : Term) :
    ∀ s : state, op_ok s (internalize_core s e).1 := by
  induction e with
  | atom k =>
      intro s
      simp only [internalize_core, apply_simple_eqvs,
        process_subsingleton_elem]
      exact op_ok_mk_entry s (Term.atom k) false
  | value k =>
      intro s
      simp only [internalize_core, apply_simple_eqvs,
        process_subsingleton_elem]
      exact op_ok_mk_entry s (Term.value k) false
  | app f a ihf iha =>
      intro s
      simp only [internalize_core]
      cases get_entry s (Term.app f a) with
      | some n => exact op_ok_refl s
      | none =>
          simp only [process_subsingleton_elem]
          refine op_ok_trans (ihf s) (op_ok_trans (iha _)
            (op_ok_trans (op_ok_mk_entry _ _ _)
              (op_ok_trans (op_ok_add_occurrence _ _ _ _)
                (op_ok_trans (op_ok_add_occurrence _ _ _ _)
                  (op_ok_of_stage_ok (stage_ok_act _ _))))))

theorem op_ok_internalize (s : state) (e : Term) :
    op_ok s (internalize s e) := by
  simp only [internalize]
  exact op_ok_trans (op_ok_internalize_core e s) (op_ok_process_todo _ _ _)

theorem op_ok_add_eqv_core (s : state) (a b : Term) (H : Pf)
    (heq : Bool) : op_ok s (add_eqv_core s a b H heq) := by
  simp only [add_eqv_core]
  exact op_ok_trans (op_ok_internalize_core a s)
    (op_ok_trans (op_ok_internalize_core b _) (op_ok_process_todo _ _ _))

theorem op_ok_add (s : state) (p : Prp) (H : Pf) :
    op_ok s (add s p H) := by
  cases p with
  | eq a b => exact op_ok_add_eqv_core s a b H false
  | iff a b => exact op_ok_add_eqv_core s a b H false
  | heq a b => exact op_ok_add_eqv_core s a b H true

theorem op_ok_step {s s' : state} (h : Step s s') : op_ok s s' := by
  cases h with
  | internalize e => exact op_ok_internalize s e
  | add p H => exact op_ok_add s p H

theorem relink_entry_root (r1 r2 nx1 nx2 : Term) (lnk : Pf) (g sz : Nat)
    (hb : Bool) (t : Term) (n : entry) :
    (relink_entry r1 r2 nx1 nx2 lnk g sz hb t n).m_root =
      if n.m_root = r1 then r2 else n.m_root := by
  unfold relink_entry
  split_ifs <;> rfl

theorem relink_entry_heq_same (r1 r2 nx1 nx2 : Term) (lnk : Pf)
    (g sz : Nat) (hb : Bool) (t : Term) (n : entry)
    (h : t ≠ r2 ∨ n.m_root = r1) :
    (relink_entry r1 r2 nx1 nx2 lnk g sz hb t n).m_heq_proofs =
      n.m_heq_proofs := by
  unfold relink_entry
  split_ifs with h1 h2 h3 h4 <;> try rfl
  rcases h with h | h
  · exact absurd h4 h
  · exact absurd h h1

theorem relink_entry_heq_new (r1 r2 nx1 nx2 : Term) (lnk : Pf)
    (g sz : Nat) (hb : Bool) (t : Term) (n : entry)
    (h1 : ¬ n.m_root = r1) (h2 : t = r2) :
    (relink_entry r1 r2 nx1 nx2 lnk g sz hb t n).m_heq_proofs = hb := by
  unfold relink_entry
  rw [if_neg h1, if_pos h2]

theorem stage_ok_merge_absorb (s : state) (e1 e2 : Term) (H : Pf)
    (heq : Bool) :
    stage_ok (merge_core s e1 e2 H heq) (merge_absorb s e1 e2 H heq).1 := by
  simp only [merge_absorb]
  exact stage_ok_trans (stage_ok_reinsert _ _) (stage_ok_update_mt _ _)

theorem get_root_merge_absorb (s : state) (e1 e2 x : Term) (H : Pf)
    (heq : Bool) {n : entry} (hx : get_entry s x = some n) :
    get_root (merge_absorb s e1 e2 H heq).1 x =
      if n.m_root = get_root s e1 then get_root s e2 else n.m_root := by
  rw [get_root_same_core (stage_ok_merge_absorb s e1 e2 H heq).1]
  unfold get_root
  rw [get_entry_merge_core, hx]
  exact relink_entry_root _ _ _ _ _ _ _ _ _ _

/-- C3: `is_eqv` is an equivalence relation on internalized terms: every
registered term is equivalent to itself, and equivalence is symmetric
and transitive on arbitrary terms. -/
theorem claim_C3 (s : state) :
    (∀ e, (get_entry s e).isSome = true → is_eqv s e e = true) ∧
    (∀ a b, is_eqv s a b = true → is_eqv s b a = true) ∧
    (∀ a b c, is_eqv s a b = true → is_eqv s b c = true →
      is_eqv s a c = true) := by
  refine ⟨?_, ?_, ?_⟩
  · intro e he
    unfold is_eqv
    cases hg : get_entry s e with
    | none => rw [hg] at he; cases he
    | some n => simp
  · intro a b h
    unfold is_eqv at h ⊢
    cases ha : get_entry s a with
    | none => rw [ha] at h; cases h
    | some na =>
        rw [ha] at h
        cases hb : get_entry s b with
        | none => rw [hb] at h; cases h
        | some nb =>
            rw [hb] at h
            simp only [decide_eq_true_eq] at h
            simp [h]
  · intro a b c h1 h2
    unfold is_eqv at h1 h2 ⊢
    cases ha : get_entry s a with
    | none => rw [ha] at h1; cases h1
    | some na =>
        rw [ha] at h1
        cases hb : get_entry s b with
        | none => rw [hb] at h1; cases h1
        | some nb =>
            rw [hb] at h1 h2
            cases hc : get_entry s c with
            | none => rw [hc] at h2; cases h2
            | some nc =>
                rw [hc] at h2
                simp only [decide_eq_true_eq] at h1 h2
                simp [h1, h2]

/-- Witness for C3 at Scenario B: in `ex_trans` (where `a = b` and
`b = c` were asserted), reflexivity, symmetry and transitivity hold at
the concrete atoms. -/
theorem claim_C3_witness :
    is_eqv ex_trans (Term.atom 1) (Term.atom 1) = true ∧
    is_eqv ex_trans (Term.atom 3) (Term.atom 1) = true ∧
    is_eqv ex_trans (Term.atom 1) (Term.atom 5) = true :=
  ⟨(claim_C3 ex_trans).1 (Term.atom 1) (by decide),
   (claim_C3 ex_trans).2.1 (Term.atom 1) (Term.atom 3) (by decide),
   (claim_C3 ex_trans).2.2 (Term.atom 1) (Term.atom 3) (Term.atom 5)
     (by decide) (by decide)⟩

/-- C2: `get_eq_proof a b` returns a proof exactly when `is_eqv a b`
holds; on registered terms that is exactly when the two roots coincide,
and when the roots differ the query returns the explicit "no proof"
answer (`none`) rather than an error. -/
theorem claim_C2 (s : state) (a b : Term) :
    ((get_eq_proof s a b).isSome = true ↔ is_eqv s a b = true) ∧
    ((get_entry s a).isSome = true → (get_entry s b).isSome = true →
      (is_eqv s a b = true ↔ get_root s a = get_root s b)) ∧
    (get_root s a ≠ get_root s b → get_eq_proof s a b = none) := by
  refine ⟨?_, ?_, ?_⟩
  · unfold get_eq_proof is_eqv
    cases ha : get_entry s a with
    | none => simp
    | some na =>
        cases hb : get_entry s b with
        | none => simp
        | some nb =>
            by_cases hr : na.m_root = nb.m_root
            · simp [hr]
            · simp [hr]
  · intro ha' hb'
    obtain ⟨na, ha⟩ := Option.isSome_iff_exists.mp ha'
    obtain ⟨nb, hb⟩ := Option.isSome_iff_exists.mp hb'
    unfold is_eqv get_root
    rw [ha, hb]
    simp
  · intro hr
    unfold get_eq_proof
    cases ha : get_entry s a with
    | none => rfl
    | some na =>
        cases hb : get_entry s b with
        | none => rfl
        | some nb =>
            have : ¬ na.m_root = nb.m_root := by
              intro hh
              apply hr
              unfold get_root
              rw [ha, hb]
              exact hh
            simp [this]

/-- Witness for C2 at Scenario B: in `ex_trans`, `a` and `c` are
equivalent and the proof query succeeds, while `a` and the unrelated
internalized atom fail with `none`. -/
theorem claim_C2_witness :
    (is_eqv ex_trans (Term.atom 1) (Term.atom 5) = true ∧
      (get_eq_proof ex_trans (Term.atom 1) (Term.atom 5)).isSome = true) ∧
    (get_root ex_trans (Term.atom 1) = get_root ex_trans (Term.atom 5)) ∧
    get_eq_proof ex_trans (Term.atom 1) (Term.atom 2) = none :=
  ⟨⟨by decide,
    ((claim_C2 ex_trans (Term.atom 1) (Term.atom 5)).1).mpr (by decide)⟩,
   ((claim_C2 ex_trans (Term.atom 1) (Term.atom 5)).2.1 (by decide)
      (by decide)).mp (by decide),
   (claim_C2 ex_trans (Term.atom 1) (Term.atom 2)).2.2 (by decide)⟩

/-- C10: a freshly constructed state, with any `ho_fns` set and any
config, is consistent, has global merge counter `0`, has the
frozen-partitions mode (which disables proof production) off, and has
empty entry, parent, congruence, symmetric-congruence and subsingleton
tables. -/
theorem claim_C10 (ho_fns : List Nat) (cfg : config) :
    inconsistent (mk_state ho_fns cfg) = false ∧
    get_gmt (mk_state ho_fns cfg) = 0 ∧
    (mk_state ho_fns cfg).m_froze_partitions = false ∧
    (mk_state ho_fns cfg).m_entries = [] ∧
    (mk_state ho_fns cfg).m_parents = [] ∧
    (mk_state ho_fns cfg).m_congruences = [] ∧
    (mk_state ho_fns cfg).m_symm_congruences = [] ∧
    (mk_state ho_fns cfg).m_subsingleton_reprs = [] :=
  ⟨rfl, rfl, rfl, rfl, rfl, rfl, rfl, rfl⟩

theorem internalize_core_present {s : state} {e : Term}
    (h : (get_entry s e).isSome = true) :
    internalize_core s e = (s, []) := by
  obtain ⟨n, hn⟩ := Option.isSome_iff_exists.mp h
  cases e with
  | atom k =>
      simp only [internalize_core, apply_simple_eqvs,
        process_subsingleton_elem, mk_entry]
      rw [mk_entry_core_present _ _ _ hn]
  | value k =>
      simp only [internalize_core, apply_simple_eqvs,
        process_subsingleton_elem, mk_entry]
      rw [mk_entry_core_present _ _ _ hn]
  | app f a =>
      simp only [internalize_core, hn]

/-- C4: asserting an equality between registered terms that is already
implied by the closure (their roots coincide) is discarded by the merge
loop: the state is unchanged — in particular the number of classes, the
root of every term and the inconsistency flag are all unchanged. -/
theorem claim_C4 (s : state) (a b : Term) (H : Pf)
    (ha : (get_entry s a).isSome = true)
    (hb : (get_entry s b).isSome = true)
    (hr : get_root s a = get_root s b) :
    add s (Prp.eq a b) H = s ∧
    num_classes (add s (Prp.eq a b) H) = num_classes s ∧
    (∀ e, get_root (add s (Prp.eq a b) H) e = get_root s e) ∧
    inconsistent (add s (Prp.eq a b) H) = inconsistent s := by
  have h1 : add s (Prp.eq a b) H = s := by
    show add_eqv_core s a b H false = s
    simp only [add_eqv_core]
    rw [internalize_core_present ha]
    dsimp only
    rw [internalize_core_present hb]
    dsimp only
    simp only [todo_fuel, List.nil_append]
    by_cases hinc : s.m_inconsistent = true
    · simp [process_todo, hinc]
    · simp [process_todo, hinc, hr]
  exact ⟨h1, by rw [h1], fun e => by rw [h1], by rw [h1]⟩

/-- Witness for C4 at Scenario B: re-asserting the implied equality
`a = c` in `ex_trans` leaves the state untouched. -/
theorem claim_C4_witness :
    (get_entry ex_trans (Term.atom 1)).isSome = true ∧
    get_root ex_trans (Term.atom 1) = get_root ex_trans (Term.atom 5) ∧
    add ex_trans (Prp.eq (Term.atom 1) (Term.atom 5)) (Pf.hyp 9) =
      ex_trans :=
  ⟨by decide, by decide,
   (claim_C4 ex_trans (Term.atom 1) (Term.atom 5) (Pf.hyp 9) (by decide)
     (by decide) (by decide)).1⟩

/-- C5: union by size — when two distinct registered classes are merged,
the class with strictly larger size absorbs the smaller: the post-merge
root of both sides is the prior root of the larger class. -/
theorem claim_C5 (s : state) (e1 e2 : Term) (H : Pf) (heq : Bool)
    (ha : (get_entry s e1).isSome = true)
    (hb : (get_entry s e2).isSome = true)
    (h12 : get_root s e1 ≠ get_root s e2) :
    (root_size s (get_root s e1) < root_size s (get_root s e2) →
      get_root (add_eqv_step s e1 e2 H heq).1 e1 = get_root s e2 ∧
      get_root (add_eqv_step s e1 e2 H heq).1 e2 = get_root s e2) ∧
    (root_size s (get_root s e2) < root_size s (get_root s e1) →
      get_root (add_eqv_step s e1 e2 H heq).1 e1 = get_root s e1 ∧
      get_root (add_eqv_step s e1 e2 H heq).1 e2 = get_root s e1) := by
  obtain ⟨n1, hg1⟩ := Option.isSome_iff_exists.mp ha
  obtain ⟨n2, hg2⟩ := Option.isSome_iff_exists.mp hb
  have hr1 : get_root s e1 = n1.m_root := by unfold get_root; rw [hg1]
  have hr2 : get_root s e2 = n2.m_root := by unfold get_root; rw [hg2]
  constructor
  · intro hsz
    have hcond : ¬ (root_size s (get_root s e2) <
        root_size s (get_root s e1) ∨
        (root_size s (get_root s e1) = root_size s (get_root s e2) ∧
          root_interp s (get_root s e2) = true ∧
          root_interp s (get_root s e1) = false)) := by
      rintro (hlt | ⟨hsame, -, -⟩)
      · exact absurd hsz (Nat.lt_asymm hlt)
      · exact absurd hsame (Nat.ne_of_lt hsz)
    simp only [add_eqv_step]
    rw [if_neg hcond]
    constructor
    · rw [get_root_merge_absorb s e1 e2 e1 H heq hg1, if_pos hr1.symm]
    · rw [get_root_merge_absorb s e1 e2 e2 H heq hg2,
        if_neg (fun hh => h12 (hr2.trans hh).symm)]
      exact hr2.symm
  · intro hsz
    have hcond : root_size s (get_root s e2) <
        root_size s (get_root s e1) ∨
        (root_size s (get_root s e1) = root_size s (get_root s e2) ∧
          root_interp s (get_root s e2) = true ∧
          root_interp s (get_root s e1) = false) := Or.inl hsz
    simp only [add_eqv_step]
    rw [if_pos hcond]
    constructor
    · rw [get_root_merge_absorb s e2 e1 e1 (Pf.symm H) heq hg1,
        if_neg (fun hh => h12 (hr1.trans hh))]
      exact hr1.symm
    · rw [get_root_merge_absorb s e2 e1 e2 (Pf.symm H) heq hg2,
        if_pos hr2.symm]

/-- Witness for C5, Scenario D: `ex_size5` has a singleton class
(`atom 20`) and a class of size five; merging the singleton into the
size-five class leaves the latter's prior root as the post-merge
root. -/
theorem claim_C5_witness :
    root_size ex_size5 (get_root ex_size5 (Term.atom 20)) = 1 ∧
    root_size ex_size5 (get_root ex_size5 (Term.atom 10)) = 5 ∧
    get_root (add_eqv_step ex_size5 (Term.atom 20) (Term.atom 10)
        (Pf.hyp 9) false).1 (Term.atom 20) =
      get_root ex_size5 (Term.atom 10) ∧
    get_root (add_eqv_step ex_size5 (Term.atom 20) (Term.atom 10)
        (Pf.hyp 9) false).1 (Term.atom 10) =
      get_root ex_size5 (Term.atom 10) := by
  refine ⟨by decide, by decide, ?_, ?_⟩
  · exact ((claim_C5 ex_size5 (Term.atom 20) (Term.atom 10) (Pf.hyp 9)
      false (by decide) (by decide) (by decide)).1 (by decide)).1
  · exact ((claim_C5 ex_size5 (Term.atom 20) (Term.atom 10) (Pf.hyp 9)
      false (by decide) (by decide) (by decide)).1 (by decide)).2

/-- C6: the inconsistency flag is sticky — once set it remains set in
every state reachable by any sequence of subsequent `internalize`/`add`
operations (the query operations are pure and cannot mutate it at
all). -/
theorem claim_C6 {s s' : state} (h : Relation.ReflTransGen Step s s')
    (hinc : inconsistent s = true) : inconsistent s' = true := by
  induction h with
  | refl => exact hinc
  | tail _ hstep ih => exact (op_ok_step hstep).1 ih

/-- Witness for C6, Scenario C flavour: `ex_inc` is inconsistent (two
distinct interpreted values were equated), and it stays inconsistent
after a further `internalize` followed by a further `add`. -/
theorem claim_C6_witness :
    inconsistent ex_inc = true ∧
    inconsistent (add (internalize ex_inc (Term.atom 7))
      (Prp.eq (Term.atom 7) (Term.atom 8)) (Pf.hyp 1)) = true := by
  have hpath : Relation.ReflTransGen Step ex_inc
      (add (internalize ex_inc (Term.atom 7))
        (Prp.eq (Term.atom 7) (Term.atom 8)) (Pf.hyp 1)) :=
    Relation.ReflTransGen.tail
      (Relation.ReflTransGen.single (Step.internalize ex_inc (Term.atom 7)))
      (Step.add (internalize ex_inc (Term.atom 7))
        (Prp.eq (Term.atom 7) (Term.atom 8)) (Pf.hyp 1))
  exact ⟨by decide, claim_C6 hpath (by decide)⟩

/-- C9 counterexample: after asserting the heterogeneous equality
`atom 0 ≅ atom 1` from a fresh state, the non-root entry (`atom 0`)
carries the justification edge of that heterogeneous assertion
(`m_target = some (atom 1)`, proof present), yet its own `m_heq_proofs`
bit is `false`; the class-level query `in_heterogeneous_eqc`
nevertheless reports `true` (read from the root).  So the bit does not
record whether heterogeneous equality is used on that particular edge;
it is class-level information maintained at the root, exactly as the
header comment on `m_heq_proofs` states. -/
theorem claim_C9_cex :
    (get_entry ex_heq (Term.atom 0)).map entry.m_heq_proofs =
      some false ∧
    (get_entry ex_heq (Term.atom 0)).map entry.m_target =
      some (some (Term.atom 1)) ∧
    (get_entry ex_heq (Term.atom 0)).map (fun n => n.m_proof.isSome) =
      some true ∧
    in_heterogeneous_eqc ex_heq (Term.atom 0) = true := by
  refine ⟨by decide, by decide, by decide, by decide⟩

/-- C9 (amended): `m_heq_proofs` is class-level, not per-edge — when a
class is absorbed during a merge, the surviving root's bit becomes the
disjunction of the merge's heterogeneity and the two constituent
classes' bits (the header: true iff some proofs in the equivalence class
are based on heterogeneous equality), while the bits of all other
entries — in particular of the members that received re-pointed edges —
are left untouched. -/
theorem claim_C9 (s : state) (e1 e2 : Term) (H : Pf) (heq : Bool)
    {n2 : entry} (h2 : get_entry s (get_root s e2) = some n2)
    (hroot : n2.m_root = get_root s e2)
    (hne : get_root s e1 ≠ get_root s e2) :
    (∃ n2', get_entry (merge_absorb s e1 e2 H heq).1
        (get_root s e2) = some n2' ∧
      n2'.m_heq_proofs = (heq || root_heq s (get_root s e1) ||
        root_heq s (get_root s e2))) ∧
    (∀ x nx nx', get_entry s x = some nx →
      get_entry (merge_absorb s e1 e2 H heq).1 x = some nx' →
      x ≠ get_root s e2 → nx'.m_heq_proofs = nx.m_heq_proofs) := by
  have hst := (stage_ok_merge_absorb s e1 e2 H heq).1
  constructor
  · have hmc : get_entry (merge_core s e1 e2 H heq) (get_root s e2) =
        some (relink_entry (get_root s e1) (get_root s e2)
          (get_next s (get_root s e1)) (get_next s (get_root s e2))
          (Pf.link e1 e2 H) (s.m_gmt + 1)
          (root_size s (get_root s e1) + root_size s (get_root s e2))
          (heq || root_heq s (get_root s e1) ||
            root_heq s (get_root s e2)) (get_root s e2) n2) := by
      rw [get_entry_merge_core, h2]
      rfl
    obtain ⟨n2', hx', -, -, -, hh', -⟩ := same_core_some' hst hmc
    refine ⟨n2', hx', ?_⟩
    rw [hh']
    exact relink_entry_heq_new _ _ _ _ _ _ _ _ _ _
      (fun hh => hne (hroot.symm.trans hh).symm) rfl
  · intro x nx nx' hx hx' hxne
    have hmc : get_entry (merge_core s e1 e2 H heq) x =
        some (relink_entry (get_root s e1) (get_root s e2)
          (get_next s (get_root s e1)) (get_next s (get_root s e2))
          (Pf.link e1 e2 H) (s.m_gmt + 1)
          (root_size s (get_root s e1) + root_size s (get_root s e2))
          (heq || root_heq s (get_root s e1) ||
            root_heq s (get_root s e2)) x nx) := by
      rw [get_entry_merge_core, hx]
      rfl
    obtain ⟨m, hm, -, -, -, hh, -⟩ := same_core_some' hst hmc
    have hmn : m = nx' := Option.some.inj (hm.symm.trans hx')
    subst hmn
    rw [hh]
    exact relink_entry_heq_same _ _ _ _ _ _ _ _ _ _ (Or.inl hxne)

/-- Witness for the amended C9: absorbing `atom 0`'s class into
`atom 1`'s with a heterogeneous proof sets the surviving root's
class-level bit. -/
theorem claim_C9_witness :
    get_root ex_two (Term.atom 0) ≠ get_root ex_two (Term.atom 1) ∧
    (∃ n2', get_entry (merge_absorb ex_two (Term.atom 0) (Term.atom 1)
        (Pf.hyp 0) true).1 (get_root ex_two (Term.atom 1)) = some n2' ∧
      n2'.m_heq_proofs = (true ||
        root_heq ex_two (get_root ex_two (Term.atom 0)) ||
        root_heq ex_two (get_root ex_two (Term.atom 1)))) := by
  refine ⟨by decide, ?_⟩
  exact (@claim_C9 ex_two (Term.atom 0) (Term.atom 1) (Pf.hyp 0) true
    (fresh_entry (Term.atom 1) false false false 0) (by decide)
    (by decide) (by decide)).1

theorem MtInv_mk_state (ho_fns : List Nat) (cfg : config) :
    MtInv (mk_state ho_fns cfg) := by
  intro x n hx
  cases hx

theorem MtInv_reachable {s : state} (h : Reachable s) : MtInv s := by
  induction h with
  | init ho_fns cfg => exact MtInv_mk_state ho_fns cfg
  | step _ hstep ih => exact (op_ok_step hstep).2.2.1 ih

theorem gmt_merge_absorb (s : state) (e1 e2 : Term) (H : Pf)
    (heq : Bool) : (merge_absorb s e1 e2 H heq).1.m_gmt = s.m_gmt + 1 := by
  rw [(stage_ok_merge_absorb s e1 e2 H heq).2.1, merge_core_gmt]

theorem gmt_add_eqv_step (s : state) (e1 e2 : Term) (H : Pf)
    (heq : Bool) : (add_eqv_step s e1 e2 H heq).1.m_gmt = s.m_gmt + 1 := by
  simp only [add_eqv_step]
  split
  · exact gmt_merge_absorb s e2 e1 (Pf.symm H) heq
  · exact gmt_merge_absorb s e1 e2 H heq

theorem relink_entry_mt_moved (r1 r2 nx1 nx2 : Term) (lnk : Pf)
    (g sz : Nat) (hb : Bool) (t : Term) (n : entry)
    (h : n.m_root = r1) :
    (relink_entry r1 r2 nx1 nx2 lnk g sz hb t n).m_mt = g := by
  unfold relink_entry
  rw [if_pos h]
  split_ifs <;> rfl

theorem merge_absorb_moved_mt (s : state) (e1 e2 : Term) (H : Pf)
    (heq : Bool) {x : Term} {nx nx' : entry}
    (hx : get_entry s x = some nx)
    (hx' : get_entry (merge_absorb s e1 e2 H heq).1 x = some nx')
    (hch : nx'.m_root ≠ nx.m_root) : nx'.m_mt = s.m_gmt + 1 := by
  obtain ⟨hc, hg, -, hm⟩ := stage_ok_merge_absorb s e1 e2 H heq
  have hmc : get_entry (merge_core s e1 e2 H heq) x =
      some (relink_entry (get_root s e1) (get_root s e2)
        (get_next s (get_root s e1)) (get_next s (get_root s e2))
        (Pf.link e1 e2 H) (s.m_gmt + 1)
        (root_size s (get_root s e1) + root_size s (get_root s e2))
        (heq || root_heq s (get_root s e1) ||
          root_heq s (get_root s e2)) x nx) := by
    rw [get_entry_merge_core, hx]
    rfl
  obtain ⟨m, hm1, hmroot, -, -, -, -⟩ := same_core_some' hc hmc
  have hmn : nx' = m := Option.some.inj (hx'.symm.trans hm1)
  have hbranch : nx.m_root = get_root s e1 := by
    by_contra hcon
    apply hch
    rw [hmn, hmroot, relink_entry_root, if_neg hcon]
  obtain ⟨m2, hm2, hmt⟩ := hm x _ hmc
  have hmn2 : nx' = m2 := Option.some.inj (hx'.symm.trans hm2)
  rw [hmn2]
  rcases hmt with hh | hh
  · rw [hh, relink_entry_mt_moved _ _ _ _ _ _ _ _ _ _ hbranch]
  · rw [hh, merge_core_gmt]

theorem add_eqv_step_moved_mt (s : state) (e1 e2 : Term) (H : Pf)
    (heq : Bool) {x : Term} {nx nx' : entry}
    (hx : get_entry s x = some nx)
    (hx' : get_entry (add_eqv_step s e1 e2 H heq).1 x = some nx')
    (hch : nx'.m_root ≠ nx.m_root) : nx'.m_mt = s.m_gmt + 1 := by
  simp only [add_eqv_step] at hx'
  split at hx'
  · exact merge_absorb_moved_mt s e2 e1 (Pf.symm H) heq hx hx' hch
  · exact merge_absorb_moved_mt s e1 e2 H heq hx hx' hch

/-- C7: in every reachable state, every entry's mod-time is bounded by
the global counter `gmt`; mod-times are monotonically nondecreasing
across the mutating operations; and a merge of two distinct classes
increments `gmt` and stamps every entry along the newly-linked path
(every member whose root changed) with the new `gmt` value. -/
theorem claim_C7 (s : state) (hs : Reachable s) :
    (∀ x n, get_entry s x = some n → n.m_mt ≤ s.m_gmt) ∧
    (∀ s', Step s s' → ∀ x n, get_entry s x = some n →
      ∃ n', get_entry s' x = some n' ∧ n.m_mt ≤ n'.m_mt) ∧
    (∀ e1 e2 H heq, get_root s e1 ≠ get_root s e2 →
      (add_eqv_step s e1 e2 H heq).1.m_gmt = s.m_gmt + 1 ∧
      (∀ x nx nx', get_entry s x = some nx →
        get_entry (add_eqv_step s e1 e2 H heq).1 x = some nx' →
        nx'.m_root ≠ nx.m_root →
        nx'.m_mt = (add_eqv_step s e1 e2 H heq).1.m_gmt)) := by
  have hinv := MtInv_reachable hs
  refine ⟨hinv, ?_, ?_⟩
  · intro s' hstep x n hx
    exact (op_ok_step hstep).2.2.2 hinv x n hx
  · intro e1 e2 H heq _hne
    refine ⟨gmt_add_eqv_step s e1 e2 H heq, ?_⟩
    intro x nx nx' hx hx' hch
    rw [gmt_add_eqv_step]
    exact add_eqv_step_moved_mt s e1 e2 H heq hx hx' hch

/-- Witness for C7: `ex_trans` is reachable, its mod-time invariant
holds, and a merge at concrete terms with distinct roots bumps `gmt`. -/
theorem claim_C7_witness :
    Reachable ex_trans ∧
    (∀ x n, get_entry ex_trans x = some n → n.m_mt ≤ ex_trans.m_gmt) ∧
    (add_eqv_step ex_trans (Term.atom 1) (Term.atom 2) (Pf.hyp 5)
      false).1.m_gmt = ex_trans.m_gmt + 1 := by
  have h0 : Reachable ex0 := Reachable.init [] cfg0
  have h1 : Reachable (internalize ex0 (Term.atom 1)) :=
    Reachable.step h0 (Step.internalize _ _)
  have h2 : Reachable (internalize (internalize ex0 (Term.atom 1))
      (Term.atom 3)) := Reachable.step h1 (Step.internalize _ _)
  have h3 : Reachable (internalize (internalize (internalize ex0
      (Term.atom 1)) (Term.atom 3)) (Term.atom 5)) :=
    Reachable.step h2 (Step.internalize _ _)
  have h4 : Reachable (add (internalize (internalize (internalize ex0
      (Term.atom 1)) (Term.atom 3)) (Term.atom 5))
      (Prp.eq (Term.atom 1) (Term.atom 3)) (Pf.hyp 0)) :=
    Reachable.step h3 (Step.add _ _ _)
  have h5 : Reachable ex_trans := Reachable.step h4 (Step.add _ _ _)
  exact ⟨h5, (claim_C7 ex_trans h5).1,
    ((claim_C7 ex_trans h5).2.2 (Term.atom 1) (Term.atom 2) (Pf.hyp 5)
      false (by decide)).1⟩

theorem alookup_mem {α : Type} {l : List (Term × α)} {k : Term} {v : α}
    (h : alookup l k = some v) : (k, v) ∈ l := by
  induction l with
  | nil => cases h
  | cons p rest ih =>
      simp only [alookup] at h
      by_cases hk : k = p.1
      · rw [if_pos hk] at h
        cases h
        subst hk
        exact List.mem_cons_self _ _
      · rw [if_neg hk] at h
        exact List.mem_cons_of_mem p (ih h)

theorem mem_amap {α : Type} {f : Term → α → α} {ps : List (Term × α)}
    {k : Term} {v : α} (h : (k, v) ∈ amap f ps) :
    ∃ v0, (k, v0) ∈ ps ∧ v = f k v0 := by
  induction ps with
  | nil => cases h
  | cons p rest ih =>
      simp only [amap, List.mem_cons, Prod.mk.injEq] at h
      rcases h with ⟨hk, hv⟩ | h
      · subst hk
        exact ⟨p.2, List.mem_cons_self _ _, hv⟩
      · obtain ⟨v0, hm, hv⟩ := ih h
        exact ⟨v0, List.mem_cons_of_mem p hm, hv⟩

theorem get_entry_merge_core_some {s : state} {x : Term} {n : entry}
    (e1 e2 : Term) (H : Pf) (heq : Bool)
    (h : get_entry s x = some n) :
    get_entry (merge_core s e1 e2 H heq) x =
      some (relink_entry (get_root s e1) (get_root s e2)
        (get_next s (get_root s e1)) (get_next s (get_root s e2))
        (Pf.link e1 e2 H) (s.m_gmt + 1)
        (root_size s (get_root s e1) + root_size s (get_root s e2))
        (heq || root_heq s (get_root s e1) || root_heq s (get_root s e2))
        x n) := by
  rw [get_entry_merge_core, h]
  rfl

theorem get_entry_merge_core_none {s : state} {x : Term}
    (e1 e2 : Term) (H : Pf) (heq : Bool) (h : get_entry s x = none) :
    get_entry (merge_core s e1 e2 H heq) x = none := by
  rw [get_entry_merge_core, h]
  rfl

theorem target_of_eq_some {s : state} {x : Term} {n : entry}
    (h : get_entry s x = some n) : target_of s x = n.m_target := by
  unfold target_of
  rw [h]

theorem target_of_eq_none {s : state} {x : Term}
    (h : get_entry s x = none) : target_of s x = none := by
  unfold target_of
  rw [h]

theorem relink_entry_target_keep (r1 r2 nx1 nx2 : Term) (lnk : Pf)
    (g sz : Nat) (hb : Bool) (t : Term) (n : entry)
    (h : ¬ n.m_root = r1) :
    (relink_entry r1 r2 nx1 nx2 lnk g sz hb t n).m_target =
      n.m_target := by
  unfold relink_entry
  rw [if_neg h]
  split_ifs <;> rfl

theorem relink_entry_proof_keep (r1 r2 nx1 nx2 : Term) (lnk : Pf)
    (g sz : Nat) (hb : Bool) (t : Term) (n : entry)
    (h : ¬ n.m_root = r1) :
    (relink_entry r1 r2 nx1 nx2 lnk g sz hb t n).m_proof = n.m_proof := by
  unfold relink_entry
  rw [if_neg h]
  split_ifs <;> rfl

theorem relink_entry_target_self (r1 r2 nx1 nx2 : Term) (lnk : Pf)
    (g sz : Nat) (hb : Bool) (t : Term) (n : entry)
    (h1 : n.m_root = r1) (h2 : t = r1) :
    (relink_entry r1 r2 nx1 nx2 lnk g sz hb t n).m_target = some r2 := by
  unfold relink_entry
  rw [if_pos h1, if_pos h2]

theorem relink_entry_target_redir (r1 r2 nx1 nx2 : Term) (lnk : Pf)
    (g sz : Nat) (hb : Bool) (t : Term) (n : entry)
    (h1 : n.m_root = r1) (h2 : ¬ t = r1) (h3 : n.m_target = some r1) :
    (relink_entry r1 r2 nx1 nx2 lnk g sz hb t n).m_target = some r2 := by
  unfold relink_entry
  rw [if_pos h1, if_neg h2, if_pos h3]

theorem relink_entry_target_keep2 (r1 r2 nx1 nx2 : Term) (lnk : Pf)
    (g sz : Nat) (hb : Bool) (t : Term) (n : entry)
    (h1 : n.m_root = r1) (h2 : ¬ t = r1) (h3 : ¬ n.m_target = some r1) :
    (relink_entry r1 r2 nx1 nx2 lnk g sz hb t n).m_target =
      n.m_target := by
  unfold relink_entry
  rw [if_pos h1, if_neg h2, if_neg h3]

theorem Inv_transfer {s s' : state} (hc : same_core s s')
    (hp : s'.m_parents = s.m_parents)
    (hq : ∀ q, q ∈ s'.m_congruences → q ∈ s.m_congruences ∨
      ∃ n, get_entry s q = some n) (hInv : Inv s) : Inv s' := by
  constructor
  · intro e n' hx
    obtain ⟨n, hg, hr, ht, -, -, -⟩ := same_core_some hc hx
    rw [hr, ht]
    exact hInv.target_iff e n hg
  · intro e n' hx
    obtain ⟨n, hg, hr, -, hpf, -, -⟩ := same_core_some hc hx
    rw [hr, hpf]
    exact hInv.proof_iff e n hg
  · intro e n' hx
    obtain ⟨n, hg, hr, -, -, -, -⟩ := same_core_some hc hx
    obtain ⟨nr, hnr, hnr2⟩ := hInv.root_ok e n hg
    obtain ⟨nr', hnr', hr2, -, -, -, -⟩ := same_core_some' hc hnr
    rw [hr]
    exact ⟨nr', hnr', by rw [hr2, hnr2]⟩
  · intro e n' t hx ht'
    obtain ⟨n, hg, hr, ht, -, -, -⟩ := same_core_some hc hx
    rw [ht] at ht'
    obtain ⟨nt, hnt, hnt2⟩ := hInv.target_ok e n t hg ht'
    obtain ⟨nt', hnt', hr2, -, -, -, -⟩ := same_core_some' hc hnt
    rw [hr]
    exact ⟨nt', hnt', by rw [hr2, hnt2]⟩
  · intro e n' hx
    obtain ⟨n, hg, hr, -, -, -, -⟩ := same_core_some hc hx
    rw [hr]
    exact ChainTo_congr (target_of_same_core hc) (hInv.chain e n hg)
  · intro k l p hk hp2
    rw [hp] at hk
    obtain ⟨n, hn⟩ := hInv.parents_dom k l p hk hp2
    obtain ⟨n', hn', -, -, -, -, -⟩ := same_core_some' hc hn
    exact ⟨n', hn'⟩
  · intro q hqm
    rcases hq q hqm with hmem | ⟨n, hn⟩
    · obtain ⟨n, hn⟩ := hInv.congr_dom q hmem
      obtain ⟨n', hn', -, -, -, -, -⟩ := same_core_some' hc hn
      exact ⟨n', hn'⟩
    · obtain ⟨n', hn', -, -, -, -, -⟩ := same_core_some' hc hn
      exact ⟨n', hn'⟩

theorem act_congs {s : state} {e q : Term}
    (hq : q ∈ (add_congruence_table s e).1.m_congruences) :
    q ∈ s.m_congruences ∨ q = e := by
  unfold add_congruence_table at hq
  cases hf : table_find s e with
  | some q2 => rw [hf] at hq; exact Or.inl hq
  | none =>
      rw [hf] at hq
      by_cases hc : s.m_congruences.contains e
      · rw [if_pos hc] at hq
        exact Or.inl hq
      · rw [if_neg hc] at hq
        rcases List.mem_append.mp hq with hh | hh
        · exact Or.inl hh
        · exact Or.inr (List.mem_singleton.mp hh)

theorem act_parents (s : state) (e : Term) :
    (add_congruence_table s e).1.m_parents = s.m_parents := by
  unfold add_congruence_table
  cases table_find s e with
  | some q => rfl
  | none =>
      by_cases hc : s.m_congruences.contains e
      · rw [if_pos hc]
      · rw [if_neg hc]

theorem Inv_act {s : state} {e : Term}
    (hdom : ∃ n, get_entry s e = some n) (hInv : Inv s) :
    Inv (add_congruence_table s e).1 := by
  refine Inv_transfer (stage_ok_act s e).1 (act_parents s e) ?_ hInv
  intro q hq
  rcases act_congs hq with hh | hh
  · exact Or.inl hh
  · rw [hh]
    exact Or.inr hdom

theorem Inv_reinsert {s : state} {l : List parent_occ}
    (hdom : ∀ p, p ∈ l → ∃ n, get_entry s p.m_expr = some n)
    (hInv : Inv s) : Inv (reinsert_list s l).1 := by
  induction l generalizing s with
  | nil => exact hInv
  | cons p rest ih =>
      simp only [reinsert_list]
      apply ih
      · intro p2 hp2
        obtain ⟨n, hn⟩ := hdom p2 (List.mem_cons_of_mem p hp2)
        obtain ⟨n', hn', -, -, -, -, -⟩ :=
          same_core_some' (stage_ok_act s p.m_expr).1 hn
        exact ⟨n', hn'⟩
      · exact Inv_act (hdom p (List.mem_cons_self p rest)) hInv

theorem update_mt_core_tables (fuel : Nat) :
    ∀ (s : state) (l : List parent_occ),
      (update_mt_core fuel s l).m_parents = s.m_parents ∧
      (update_mt_core fuel s l).m_congruences = s.m_congruences := by
  induction fuel with
  | zero => intro s l; exact ⟨rfl, rfl⟩
  | succ fuel ih =>
      intro s l
      cases l with
      | nil => exact ⟨rfl, rfl⟩
      | cons p rest =>
          simp only [update_mt_core]
          constructor
          · rw [(ih _ rest).1]
            split
            · split
              · rw [(ih _ _).1]
                rfl
              · rfl
            · rfl
          · rw [(ih _ rest).2]
            split
            · split
              · rw [(ih _ _).2]
                rfl
              · rfl
            · rfl

theorem update_mt_tables (s : state) (e : Term) :
    (update_mt s e).m_parents = s.m_parents ∧
    (update_mt s e).m_congruences = s.m_congruences := by
  unfold update_mt
  exact ⟨(update_mt_core_tables _ _ _).1, (update_mt_core_tables _ _ _).2⟩

theorem Inv_update_mt {s : state} (e : Term) (hInv : Inv s) :
    Inv (update_mt s e) := by
  refine Inv_transfer (stage_ok_update_mt s e).1 ?_ ?_ hInv
  · exact (update_mt_tables s e).1
  · intro q hq
    rw [(update_mt_tables s e).2] at hq
    exact Or.inl hq

theorem mk_entry_core_tables (s : state) (e : Term) (tp ip ct : Bool) :
    (mk_entry_core s e tp ip ct).m_parents = s.m_parents ∧
    (mk_entry_core s e tp ip ct).m_congruences = s.m_congruences ∧
    (mk_entry_core s e tp ip ct).m_gmt = s.m_gmt := by
  unfold mk_entry_core
  cases get_entry s e with
  | some n => exact ⟨rfl, rfl, rfl⟩
  | none => exact ⟨rfl, rfl, rfl⟩

theorem Inv_mk_entry_core {s : state} (e : Term) (tp ip ct : Bool)
    (hInv : Inv s) : Inv (mk_entry_core s e tp ip ct) := by
  cases h : get_entry s e with
  | some n => rw [mk_entry_core_present _ _ _ h]; exact hInv
  | none =>
      have hx := get_entry_mk_entry_core_new tp ip ct h
      have htab := mk_entry_core_tables s e tp ip ct
      have htgt : ∀ y, target_of (mk_entry_core s e tp ip ct) y =
          target_of s y := by
        intro y
        by_cases hy : y = e
        · subst hy
          rw [target_of_eq_some (by rw [hx y, if_pos rfl]),
            target_of_eq_none h]
          rfl
        · unfold target_of
          rw [hx y, if_neg hy]
      constructor
      · intro x n hxx
        rw [hx x] at hxx
        by_cases hxe : x = e
        · rw [if_pos hxe] at hxx
          cases hxx
          subst hxe
          simp [fresh_entry]
        · rw [if_neg hxe] at hxx
          exact hInv.target_iff x n hxx
      · intro x n hxx
        rw [hx x] at hxx
        by_cases hxe : x = e
        · rw [if_pos hxe] at hxx
          cases hxx
          subst hxe
          simp [fresh_entry]
        · rw [if_neg hxe] at hxx
          exact hInv.proof_iff x n hxx
      · intro x n hxx
        rw [hx x] at hxx
        by_cases hxe : x = e
        · rw [if_pos hxe] at hxx
          cases hxx
          refine ⟨fresh_entry e tp ip ct s.m_gmt, ?_, rfl⟩
          rw [hx, if_pos]
          rfl
        · rw [if_neg hxe] at hxx
          obtain ⟨nr, hnr, hnr2⟩ := hInv.root_ok x n hxx
          refine ⟨nr, ?_, hnr2⟩
          have hne : ¬ n.m_root = e := by
            intro hh
            rw [hh, h] at hnr
            cases hnr
          rw [hx n.m_root, if_neg hne]
          exact hnr
      · intro x n t hxx ht'
        rw [hx x] at hxx
        by_cases hxe : x = e
        · rw [if_pos hxe] at hxx
          cases hxx
          simp [fresh_entry] at ht'
        · rw [if_neg hxe] at hxx
          obtain ⟨nt, hnt, hnt2⟩ := hInv.target_ok x n t hxx ht'
          refine ⟨nt, ?_, hnt2⟩
          have hne : ¬ t = e := by
            intro hh
            rw [hh, h] at hnt
            cases hnt
          rw [hx t, if_neg hne]
          exact hnt
      · intro x n hxx
        rw [hx x] at hxx
        by_cases hxe : x = e
        · rw [if_pos hxe] at hxx
          cases hxx
          subst hxe
          exact ChainTo.stop x (by rw [htgt, target_of_eq_none h])
        · rw [if_neg hxe] at hxx
          exact ChainTo_congr htgt (hInv.chain x n hxx)
      · intro k l p hk hp2
        rw [htab.1] at hk
        obtain ⟨n, hn⟩ := hInv.parents_dom k l p hk hp2
        refine ⟨n, ?_⟩
        have hne : ¬ p.m_expr = e := by
          intro hh
          rw [hh, h] at hn
          cases hn
        rw [hx p.m_expr, if_neg hne]
        exact hn
      · intro q hqm
        rw [htab.2.1] at hqm
        obtain ⟨n, hn⟩ := hInv.congr_dom q hqm
        refine ⟨n, ?_⟩
        have hne : ¬ q = e := by
          intro hh
          rw [hh, h] at hn
          cases hn
        rw [hx q, if_neg hne]
        exact hn

theorem Inv_mk_entry {s : state} (e : Term) (tp : Bool) (hInv : Inv s) :
    Inv (mk_entry s e tp) :=
  Inv_mk_entry_core e tp _ _ hInv

theorem alookup_pinsert {ps : List (Term × List parent_occ)}
    {k k2 : Term} {occ : parent_occ} {l : List parent_occ}
    (h : (k2, l) ∈ pinsert ps k occ) :
    ∀ p, p ∈ l → (∃ l0, (k2, l0) ∈ ps ∧ p ∈ l0) ∨ p = occ := by
  unfold pinsert at h
  cases hk : alookup ps k with
  | some l0 =>
      rw [hk] at h
      obtain ⟨l1, hm, hl⟩ := mem_amap h
      subst hl
      intro p hp
      by_cases hkk : k2 = k
      · rw [if_pos hkk] at hp
        rcases List.mem_append.mp hp with hh | hh
        · exact Or.inl ⟨l1, hm, hh⟩
        · exact Or.inr (List.mem_singleton.mp hh)
      · rw [if_neg hkk] at hp
        exact Or.inl ⟨l1, hm, hp⟩
  | none =>
      rw [hk] at h
      rcases List.mem_append.mp h with hh | hh
      · intro p hp
        exact Or.inl ⟨l, hh, hp⟩
      · have := List.mem_singleton.mp hh
        have hkk : k2 = k := congrArg Prod.fst this
        have hll : l = [occ] := congrArg Prod.snd this
        subst hll
        intro p hp
        exact Or.inr (List.mem_singleton.mp hp)

theorem Inv_add_occurrence {s : state} {p c : Term} {b : Bool}
    (hdom : ∃ n, get_entry s p = some n) (hInv : Inv s) :
    Inv (add_occurrence s p c b) := by
  have htgt : ∀ y, target_of (add_occurrence s p c b) y = target_of s y :=
    fun y => rfl
  constructor
  · intro x n hxx; exact hInv.target_iff x n hxx
  · intro x n hxx; exact hInv.proof_iff x n hxx
  · intro x n hxx; exact hInv.root_ok x n hxx
  · intro x n t hxx ht'; exact hInv.target_ok x n t hxx ht'
  · intro x n hxx
    exact ChainTo_congr htgt (hInv.chain x n hxx)
  · intro k l p2 hk hp2
    have hk' : (k, l) ∈ pinsert s.m_parents (get_root s c) ⟨p, b⟩ := hk
    rcases alookup_pinsert hk' p2 hp2 with ⟨l0, hl0, hpl⟩ | hpo
    · exact hInv.parents_dom k l0 p2 hl0 hpl
    · rw [hpo]
      exact hdom
  · intro q hqm
    exact hInv.congr_dom q hqm

theorem relink_entry_proof_self (r1 r2 nx1 nx2 : Term) (lnk : Pf)
    (g sz : Nat) (hb : Bool) (t : Term) (n : entry)
    (h1 : n.m_root = r1) (h2 : t = r1) :
    (relink_entry r1 r2 nx1 nx2 lnk g sz hb t n).m_proof = some lnk := by
  unfold relink_entry
  rw [if_pos h1, if_pos h2]

theorem relink_entry_proof_redir (r1 r2 nx1 nx2 : Term) (lnk : Pf)
    (g sz : Nat) (hb : Bool) (t : Term) (n : entry)
    (h1 : n.m_root = r1) (h2 : ¬ t = r1) (h3 : n.m_target = some r1) :
    (relink_entry r1 r2 nx1 nx2 lnk g sz hb t n).m_proof =
      some (match n.m_proof with
        | some p => Pf.trans p lnk
        | none => lnk) := by
  unfold relink_entry
  rw [if_pos h1, if_neg h2, if_pos h3]

theorem relink_entry_proof_keep2 (r1 r2 nx1 nx2 : Term) (lnk : Pf)
    (g sz : Nat) (hb : Bool) (t : Term) (n : entry)
    (h1 : n.m_root = r1) (h2 : ¬ t = r1) (h3 : ¬ n.m_target = some r1) :
    (relink_entry r1 r2 nx1 nx2 lnk g sz hb t n).m_proof = n.m_proof := by
  unfold relink_entry
  rw [if_pos h1, if_neg h2, if_neg h3]

theorem get_entry_merge_core_someF {s : state} {x : Term} {n : entry}
    (e1 e2 : Term) (H : Pf) (heq : Bool) (h : get_entry s x = some n) :
    get_entry (merge_core s e1 e2 H heq) x =
      some (relinkF s e1 e2 H heq x n) :=
  get_entry_merge_core_some e1 e2 H heq h

theorem relinkF_root {s : state} (e1 e2 : Term) (H : Pf) (heq : Bool)
    (t : Term) (n : entry) :
    (relinkF s e1 e2 H heq t n).m_root =
      if n.m_root = get_root s e1 then get_root s e2 else n.m_root :=
  relink_entry_root _ _ _ _ _ _ _ _ _ _

theorem relinkF_target_keep {s : state} {e1 e2 : Term} {H : Pf}
    {heq : Bool} {t : Term} {n : entry}
    (h : ¬ n.m_root = get_root s e1) :
    (relinkF s e1 e2 H heq t n).m_target = n.m_target :=
  relink_entry_target_keep _ _ _ _ _ _ _ _ _ _ h

theorem relinkF_proof_keep {s : state} {e1 e2 : Term} {H : Pf}
    {heq : Bool} {t : Term} {n : entry}
    (h : ¬ n.m_root = get_root s e1) :
    (relinkF s e1 e2 H heq t n).m_proof = n.m_proof :=
  relink_entry_proof_keep _ _ _ _ _ _ _ _ _ _ h

theorem relinkF_target_self {s : state} {e1 e2 : Term} {H : Pf}
    {heq : Bool} {t : Term} {n : entry}
    (h1 : n.m_root = get_root s e1) (h2 : t = get_root s e1) :
    (relinkF s e1 e2 H heq t n).m_target = some (get_root s e2) :=
  relink_entry_target_self _ _ _ _ _ _ _ _ _ _ h1 h2

theorem relinkF_proof_self {s : state} {e1 e2 : Term} {H : Pf}
    {heq : Bool} {t : Term} {n : entry}
    (h1 : n.m_root = get_root s e1) (h2 : t = get_root s e1) :
    (relinkF s e1 e2 H heq t n).m_proof = some (Pf.link e1 e2 H) :=
  relink_entry_proof_self _ _ _ _ _ _ _ _ _ _ h1 h2

theorem relinkF_target_redir {s : state} {e1 e2 : Term} {H : Pf}
    {heq : Bool} {t : Term} {n : entry}
    (h1 : n.m_root = get_root s e1) (h2 : ¬ t = get_root s e1)
    (h3 : n.m_target = some (get_root s e1)) :
    (relinkF s e1 e2 H heq t n).m_target = some (get_root s e2) :=
  relink_entry_target_redir _ _ _ _ _ _ _ _ _ _ h1 h2 h3

theorem relinkF_proof_redir {s : state} {e1 e2 : Term} {H : Pf}
    {heq : Bool} {t : Term} {n : entry}
    (h1 : n.m_root = get_root s e1) (h2 : ¬ t = get_root s e1)
    (h3 : n.m_target = some (get_root s e1)) :
    (relinkF s e1 e2 H heq t n).m_proof =
      some (match n.m_proof with
        | some p => Pf.trans p (Pf.link e1 e2 H)
        | none => Pf.link e1 e2 H) :=
  relink_entry_proof_redir _ _ _ _ _ _ _ _ _ _ h1 h2 h3

theorem relinkF_target_keep2 {s : state} {e1 e2 : Term} {H : Pf}
    {heq : Bool} {t : Term} {n : entry}
    (h1 : n.m_root = get_root s e1) (h2 : ¬ t = get_root s e1)
    (h3 : ¬ n.m_target = some (get_root s e1)) :
    (relinkF s e1 e2 H heq t n).m_target = n.m_target :=
  relink_entry_target_keep2 _ _ _ _ _ _ _ _ _ _ h1 h2 h3

theorem relinkF_proof_keep2 {s : state} {e1 e2 : Term} {H : Pf}
    {heq : Bool} {t : Term} {n : entry}
    (h1 : n.m_root = get_root s e1) (h2 : ¬ t = get_root s e1)
    (h3 : ¬ n.m_target = some (get_root s e1)) :
    (relinkF s e1 e2 H heq t n).m_proof = n.m_proof :=
  relink_entry_proof_keep2 _ _ _ _ _ _ _ _ _ _ h1 h2 h3

theorem ChainTo_merge_keep {s : state} {e1 e2 : Term} {H : Pf}
    {heq : Bool} (hInv : Inv s) {x r : Term} (hc : ChainTo s x r) :
    ∀ {nx : entry}, get_entry s x = some nx →
      ¬ nx.m_root = get_root s e1 →
      ChainTo (merge_core s e1 e2 H heq) x r := by
  induction hc with
  | stop y hy =>
      intro nx hnx hroot
      refine ChainTo.stop y ?_
      rw [target_of_eq_some (get_entry_merge_core_someF e1 e2 H heq hnx),
        relinkF_target_keep hroot]
      rw [target_of_eq_some hnx] at hy
      exact hy
  | hop y t r hy hc2 ih =>
      intro nx hnx hroot
      rw [target_of_eq_some hnx] at hy
      obtain ⟨nt, hnt, hntr⟩ := hInv.target_ok y nx t hnx hy
      refine ChainTo.hop y t r ?_ (ih hnt (by rw [hntr]; exact hroot))
      rw [target_of_eq_some (get_entry_merge_core_someF e1 e2 H heq hnx),
        relinkF_target_keep hroot]
      exact hy

theorem ChainTo_merge_moved {s : state} {e1 e2 : Term} {H : Pf}
    {heq : Bool} (hInv : Inv s)
    (hne : ¬ get_root s e1 = get_root s e2)
    {m2 : entry} (hm2 : get_entry s (get_root s e2) = some m2)
    (hm2r : m2.m_root = get_root s e2)
    {x r : Term} (hc : ChainTo s x r) :
    ∀ {nx : entry}, get_entry s x = some nx →
      nx.m_root = get_root s e1 → r = get_root s e1 →
      ChainTo (merge_core s e1 e2 H heq) x (get_root s e2) := by
  have hstop2 : ChainTo (merge_core s e1 e2 H heq) (get_root s e2)
      (get_root s e2) := by
    refine ChainTo.stop _ ?_
    rw [target_of_eq_some (get_entry_merge_core_someF e1 e2 H heq hm2),
      relinkF_target_keep (by rw [hm2r]; exact fun hh => hne hh.symm)]
    exact (hInv.target_iff _ m2 hm2).mpr hm2r
  induction hc with
  | stop y hy =>
      intro nx hnx hroot hr
      subst hr
      refine ChainTo.hop _ _ _ ?_ hstop2
      rw [target_of_eq_some (get_entry_merge_core_someF e1 e2 H heq hnx),
        relinkF_target_self hroot rfl]
  | hop y t r hy hc2 ih =>
      intro nx hnx hroot hr
      rw [target_of_eq_some hnx] at hy
      have hyne : ¬ y = get_root s e1 := by
        intro hh
        have hnone := (hInv.target_iff y nx hnx).mpr (by rw [hroot, hh])
        rw [hnone] at hy
        cases hy
      by_cases ht1 : t = get_root s e1
      · refine ChainTo.hop _ _ _ ?_ hstop2
        rw [target_of_eq_some (get_entry_merge_core_someF e1 e2 H heq hnx)]
        exact relinkF_target_redir hroot hyne (by rw [hy, ht1])
      · obtain ⟨nt, hnt, hntr⟩ := hInv.target_ok y nx t hnx hy
        refine ChainTo.hop y t _ ?_
          (ih hnt (by rw [hntr]; exact hroot) hr)
        rw [target_of_eq_some (get_entry_merge_core_someF e1 e2 H heq hnx),
          relinkF_target_keep2 hroot hyne
            (by rw [hy]; exact fun hh => ht1 (Option.some.inj hh))]
        exact hy

theorem Inv_merge_core {s : state} {e1 e2 : Term} {H : Pf} {heq : Bool}
    (hd1 : ∃ n, get_entry s e1 = some n)
    (hd2 : ∃ n, get_entry s e2 = some n)
    (hne : ¬ get_root s e1 = get_root s e2)
    (hInv : Inv s) : Inv (merge_core s e1 e2 H heq) := by
  obtain ⟨n1, hn1⟩ := hd1
  obtain ⟨n2, hn2⟩ := hd2
  have hr1e : get_root s e1 = n1.m_root := by unfold get_root; rw [hn1]
  have hr2e : get_root s e2 = n2.m_root := by unfold get_root; rw [hn2]
  obtain ⟨m2, hm2a, hm2b⟩ := hInv.root_ok e2 n2 hn2
  have hm2' : get_entry s (get_root s e2) = some m2 := by
    rw [hr2e]; exact hm2a
  have hm2root : m2.m_root = get_root s e2 := by rw [hr2e]; exact hm2b
  have hr2x : ∀ x nx, get_entry s x = some nx →
      nx.m_root = get_root s e1 → ¬ (get_root s e2 = x) := by
    intro x nx hx hroot hh
    rw [← hh] at hx
    have heq2 : m2 = nx := Option.some.inj (hm2'.symm.trans hx)
    apply hne
    rw [← hroot, ← hm2root, heq2]
  constructor
  · intro x n' hx'
    cases hg : get_entry s x with
    | none =>
        rw [get_entry_merge_core_none e1 e2 H heq hg] at hx'
        cases hx'
    | some n =>
        rw [get_entry_merge_core_someF e1 e2 H heq hg] at hx'
        have hn' := (Option.some.inj hx').symm
        subst hn'
        by_cases h1 : n.m_root = get_root s e1
        · rw [relinkF_root, if_pos h1]
          by_cases h2 : x = get_root s e1
          · rw [relinkF_target_self h1 h2]
            constructor
            · intro hc; cases hc
            · intro hc; exact absurd (hc.trans h2).symm hne
          · by_cases h3 : n.m_target = some (get_root s e1)
            · rw [relinkF_target_redir h1 h2 h3]
              constructor
              · intro hc; cases hc
              · intro hc; exact absurd hc (hr2x x n hg h1)
            · rw [relinkF_target_keep2 h1 h2 h3]
              constructor
              · intro hc
                exact absurd ((hInv.target_iff x n hg).mp hc)
                  (by rw [h1]; exact fun hh => h2 hh.symm)
              · intro hc; exact absurd hc (hr2x x n hg h1)
        · rw [relinkF_target_keep h1, relinkF_root, if_neg h1]
          exact hInv.target_iff x n hg
  · intro x n' hx'
    cases hg : get_entry s x with
    | none =>
        rw [get_entry_merge_core_none e1 e2 H heq hg] at hx'
        cases hx'
    | some n =>
        rw [get_entry_merge_core_someF e1 e2 H heq hg] at hx'
        have hn' := (Option.some.inj hx').symm
        subst hn'
        by_cases h1 : n.m_root = get_root s e1
        · rw [relinkF_root, if_pos h1]
          by_cases h2 : x = get_root s e1
          · rw [relinkF_proof_self h1 h2]
            constructor
            · intro hc; cases hc
            · intro hc; exact absurd (hc.trans h2).symm hne
          · by_cases h3 : n.m_target = some (get_root s e1)
            · rw [relinkF_proof_redir h1 h2 h3]
              constructor
              · intro hc; cases hc
              · intro hc; exact absurd hc (hr2x x n hg h1)
            · rw [relinkF_proof_keep2 h1 h2 h3]
              constructor
              · intro hc
                exact absurd ((hInv.proof_iff x n hg).mp hc)
                  (by rw [h1]; exact fun hh => h2 hh.symm)
              · intro hc; exact absurd hc (hr2x x n hg h1)
        · rw [relinkF_proof_keep h1, relinkF_root, if_neg h1]
          exact hInv.proof_iff x n hg
  · intro x n' hx'
    cases hg : get_entry s x with
    | none =>
        rw [get_entry_merge_core_none e1 e2 H heq hg] at hx'
        cases hx'
    | some n =>
        rw [get_entry_merge_core_someF e1 e2 H heq hg] at hx'
        have hn' := (Option.some.inj hx').symm
        subst hn'
        rw [relinkF_root]
        by_cases h1 : n.m_root = get_root s e1
        · rw [if_pos h1]
          refine ⟨relinkF s e1 e2 H heq (get_root s e2) m2,
            get_entry_merge_core_someF e1 e2 H heq hm2', ?_⟩
          rw [relinkF_root,
            if_neg (by rw [hm2root]; exact fun hh => hne hh.symm)]
          exact hm2root
        · rw [if_neg h1]
          obtain ⟨nr, hnr, hnr2⟩ := hInv.root_ok x n hg
          refine ⟨relinkF s e1 e2 H heq n.m_root nr,
            get_entry_merge_core_someF e1 e2 H heq hnr, ?_⟩
          rw [relinkF_root, if_neg (by rw [hnr2]; exact h1)]
          exact hnr2
  · intro x n' t' hx' ht'
    cases hg : get_entry s x with
    | none =>
        rw [get_entry_merge_core_none e1 e2 H heq hg] at hx'
        cases hx'
    | some n =>
        rw [get_entry_merge_core_someF e1 e2 H heq hg] at hx'
        have hn' := (Option.some.inj hx').symm
        subst hn'
        by_cases h1 : n.m_root = get_root s e1
        · have hroot2 : (relinkF s e1 e2 H heq x n).m_root =
              get_root s e2 := by rw [relinkF_root, if_pos h1]
          have hwit : ∃ nt, get_entry (merge_core s e1 e2 H heq)
              (get_root s e2) = some nt ∧
              nt.m_root = get_root s e2 := by
            refine ⟨relinkF s e1 e2 H heq (get_root s e2) m2,
              get_entry_merge_core_someF e1 e2 H heq hm2', ?_⟩
            rw [relinkF_root,
              if_neg (by rw [hm2root]; exact fun hh => hne hh.symm)]
            exact hm2root
          by_cases h2 : x = get_root s e1
          · rw [relinkF_target_self h1 h2] at ht'
            have ht2 := Option.some.inj ht'
            obtain ⟨nt, hnt1, hnt2⟩ := hwit
            refine ⟨nt, by rw [← ht2]; exact hnt1, ?_⟩
            rw [hroot2, hnt2]
          · by_cases h3 : n.m_target = some (get_root s e1)
            · rw [relinkF_target_redir h1 h2 h3] at ht'
              have ht2 := Option.some.inj ht'
              obtain ⟨nt, hnt1, hnt2⟩ := hwit
              refine ⟨nt, by rw [← ht2]; exact hnt1, ?_⟩
              rw [hroot2, hnt2]
            · rw [relinkF_target_keep2 h1 h2 h3] at ht'
              obtain ⟨nt, hnt, hntr⟩ := hInv.target_ok x n t' hg ht'
              refine ⟨relinkF s e1 e2 H heq t' nt,
                get_entry_merge_core_someF e1 e2 H heq hnt, ?_⟩
              rw [relinkF_root, if_pos (by rw [hntr]; exact h1), hroot2]
        · rw [relinkF_target_keep h1] at ht'
          obtain ⟨nt, hnt, hntr⟩ := hInv.target_ok x n t' hg ht'
          refine ⟨relinkF s e1 e2 H heq t' nt,
            get_entry_merge_core_someF e1 e2 H heq hnt, ?_⟩
          rw [relinkF_root, if_neg (by rw [hntr]; exact h1), hntr,
            relinkF_root, if_neg h1]
  · intro x n' hx'
    cases hg : get_entry s x with
    | none =>
        rw [get_entry_merge_core_none e1 e2 H heq hg] at hx'
        cases hx'
    | some n =>
        rw [get_entry_merge_core_someF e1 e2 H heq hg] at hx'
        have hn' := (Option.some.inj hx').symm
        subst hn'
        rw [relinkF_root]
        by_cases h1 : n.m_root = get_root s e1
        · rw [if_pos h1]
          exact ChainTo_merge_moved hInv hne hm2' hm2root
            (hInv.chain x n hg) hg h1 h1
        · rw [if_neg h1]
          exact ChainTo_merge_keep hInv (hInv.chain x n hg) hg h1
  · intro k l p hk hp2
    have hk' : (k, l) ∈ (s.m_parents.filter
        (fun q => !(decide (q.1 = get_root s e1)) &&
          !(decide (q.1 = get_root s e2)))) ++
        [(get_root s e2, parents_of s (get_root s e2) ++
          parents_of s (get_root s e1))] := hk
    rcases List.mem_append.mp hk' with hh | hh
    · obtain ⟨n, hn⟩ := hInv.parents_dom k l p
        (List.mem_filter.mp hh).1 hp2
      exact ⟨_, get_entry_merge_core_someF e1 e2 H heq hn⟩
    · have heqp := List.mem_singleton.mp hh
      have hlp : l = parents_of s (get_root s e2) ++
          parents_of s (get_root s e1) := congrArg Prod.snd heqp
      subst hlp
      rcases List.mem_append.mp hp2 with hh2 | hh2
      · unfold parents_of at hh2
        cases hpp : alookup s.m_parents (get_root s e2) with
        | none => rw [hpp] at hh2; cases hh2
        | some l2 =>
            rw [hpp] at hh2
            obtain ⟨n, hn⟩ := hInv.parents_dom _ l2 p
              (alookup_mem hpp) hh2
            exact ⟨_, get_entry_merge_core_someF e1 e2 H heq hn⟩
      · unfold parents_of at hh2
        cases hpp : alookup s.m_parents (get_root s e1) with
        | none => rw [hpp] at hh2; cases hh2
        | some l1 =>
            rw [hpp] at hh2
            obtain ⟨n, hn⟩ := hInv.parents_dom _ l1 p
              (alookup_mem hpp) hh2
            exact ⟨_, get_entry_merge_core_someF e1 e2 H heq hn⟩
  · intro q hq
    have hq' : q ∈ s.m_congruences.filter
        (fun q2 => !((parents_of s (get_root s e1)).any
          (fun p => decide (p.m_expr = q2)))) := hq
    obtain ⟨n, hn⟩ := hInv.congr_dom q (List.mem_filter.mp hq').1
    exact ⟨_, get_entry_merge_core_someF e1 e2 H heq hn⟩

theorem dom_le_of_same_core {s s' : state} (h : same_core s s') :
    dom_le s s' := by
  intro x hx
  obtain ⟨n, hn⟩ := hx
  obtain ⟨n', hn', -, -, -, -, -⟩ := same_core_some' h hn
  exact ⟨n', hn'⟩

theorem dom_le_mk_entry_core (s : state) (e : Term) (tp ip ct : Bool) :
    dom_le s (mk_entry_core s e tp ip ct) := by
  intro x hx
  cases h : get_entry s e with
  | some n => rw [mk_entry_core_present _ _ _ h]; exact hx
  | none =>
      obtain ⟨n, hn⟩ := hx
      rw [get_entry_mk_entry_core_new tp ip ct h x]
      by_cases hxe : x = e
      · rw [if_pos hxe]; exact ⟨_, rfl⟩
      · rw [if_neg hxe]; exact ⟨n, hn⟩

theorem mk_entry_dom (s : state) (e : Term) (tp : Bool) :
    ∃ n, get_entry (mk_entry s e tp) e = some n := by
  unfold mk_entry
  cases h : get_entry s e with
  | some n => rw [mk_entry_core_present _ _ _ h]; exact ⟨n, h⟩
  | none =>
      rw [get_entry_mk_entry_core_new _ _ _ h e, if_pos rfl]
      exact ⟨_, rfl⟩

theorem dom_le_merge_absorb (s : state) (e1 e2 : Term) (H : Pf)
    (heq : Bool) : dom_le s (merge_absorb s e1 e2 H heq).1 := by
  intro x hx
  obtain ⟨n, hn⟩ := hx
  exact dom_le_of_same_core (stage_ok_merge_absorb s e1 e2 H heq).1 x
    ⟨_, get_entry_merge_core_someF e1 e2 H heq hn⟩

theorem dom_le_add_eqv_step (s : state) (e1 e2 : Term) (H : Pf)
    (heq : Bool) : dom_le s (add_eqv_step s e1 e2 H heq).1 := by
  simp only [add_eqv_step]
  split
  · exact dom_le_merge_absorb _ _ _ _ _
  · exact dom_le_merge_absorb _ _ _ _ _

theorem act_todo {s : state} {e : Term} {t : todo_entry}
    (ht : t ∈ (add_congruence_table s e).2) :
    t.1 = e ∧ t.2.1 ∈ s.m_congruences := by
  unfold add_congruence_table at ht
  cases hf : table_find s e with
  | some q =>
      rw [hf] at ht
      have hts := List.mem_singleton.mp ht
      subst hts
      refine ⟨rfl, ?_⟩
      unfold table_find at hf
      exact List.mem_of_find?_eq_some hf
  | none =>
      rw [hf] at ht
      exact absurd ht (List.not_mem_nil t)

theorem reinsert_todo_dom {s : state} {l : List parent_occ}
    (hdom : ∀ p, p ∈ l → ∃ n, get_entry s p.m_expr = some n)
    (hcong : ∀ q, q ∈ s.m_congruences → ∃ n, get_entry s q = some n) :
    ∀ t, t ∈ (reinsert_list s l).2 →
      (∃ n, get_entry (reinsert_list s l).1 t.1 = some n) ∧
      (∃ n, get_entry (reinsert_list s l).1 t.2.1 = some n) := by
  induction l generalizing s with
  | nil => intro t ht; cases ht
  | cons p rest ih =>
      simp only [reinsert_list]
      intro t ht
      have hstep := dom_le_of_same_core (stage_ok_act s p.m_expr).1
      have hdom' : ∀ p2, p2 ∈ rest →
          ∃ n, get_entry (add_congruence_table s p.m_expr).1 p2.m_expr =
            some n :=
        fun p2 hp2 => hstep _ (hdom p2 (List.mem_cons_of_mem p hp2))
      have hcong' : ∀ q,
          q ∈ (add_congruence_table s p.m_expr).1.m_congruences →
          ∃ n, get_entry (add_congruence_table s p.m_expr).1 q =
            some n := by
        intro q hq
        rcases act_congs hq with hh | hh
        · exact hstep _ (hcong q hh)
        · rw [hh]
          exact hstep _ (hdom p (List.mem_cons_self p rest))
      rcases List.mem_append.mp ht with hh | hh
      · obtain ⟨h1, h2⟩ := act_todo hh
        have hrest := dom_le_of_same_core
          (stage_ok_reinsert (add_congruence_table s p.m_expr).1 rest).1
        constructor
        · rw [h1]
          exact hrest _ (hstep _ (hdom p (List.mem_cons_self p rest)))
        · exact hrest _ (hstep _ (hcong _ h2))
      · exact ih hdom' hcong' t hh

theorem merge_core_ps1_dom {s : state} (e1 e2 : Term) (H : Pf)
    (heq : Bool) (hInv : Inv s) :
    ∀ p, p ∈ parents_of s (get_root s e1) →
      ∃ n, get_entry (merge_core s e1 e2 H heq) p.m_expr = some n := by
  intro p hp
  unfold parents_of at hp
  cases hpp : alookup s.m_parents (get_root s e1) with
  | none => rw [hpp] at hp; cases hp
  | some l1 =>
      rw [hpp] at hp
      obtain ⟨n, hn⟩ := hInv.parents_dom _ l1 p (alookup_mem hpp) hp
      exact ⟨_, get_entry_merge_core_someF e1 e2 H heq hn⟩

theorem merge_core_congs_dom {s : state} (e1 e2 : Term) (H : Pf)
    (heq : Bool) (hInv : Inv s) :
    ∀ q, q ∈ (merge_core s e1 e2 H heq).m_congruences →
      ∃ n, get_entry (merge_core s e1 e2 H heq) q = some n := by
  intro q hq
  have hq' : q ∈ s.m_congruences.filter
      (fun q2 => !((parents_of s (get_root s e1)).any
        (fun p => decide (p.m_expr = q2)))) := hq
  obtain ⟨n, hn⟩ := hInv.congr_dom q (List.mem_filter.mp hq').1
  exact ⟨_, get_entry_merge_core_someF e1 e2 H heq hn⟩

theorem merge_absorb_todo_dom {s : state} (e1 e2 : Term) (H : Pf)
    (heq : Bool) (hInv : Inv s) :
    ∀ t, t ∈ (merge_absorb s e1 e2 H heq).2 →
      (∃ n, get_entry (merge_absorb s e1 e2 H heq).1 t.1 = some n) ∧
      (∃ n, get_entry (merge_absorb s e1 e2 H heq).1 t.2.1 = some n) := by
  intro t ht
  have ht' : t ∈ (reinsert_list (merge_core s e1 e2 H heq)
      (parents_of s (get_root s e1))).2 := ht
  have hres := reinsert_todo_dom (merge_core_ps1_dom e1 e2 H heq hInv)
    (merge_core_congs_dom e1 e2 H heq hInv) t ht'
  have hupd := dom_le_of_same_core (stage_ok_update_mt
    (reinsert_list (merge_core s e1 e2 H heq)
      (parents_of s (get_root s e1))).1 e2).1
  exact ⟨hupd _ hres.1, hupd _ hres.2⟩

theorem add_eqv_step_todo_dom {s : state} (e1 e2 : Term) (H : Pf)
    (heq : Bool) (hInv : Inv s) :
    ∀ t, t ∈ (add_eqv_step s e1 e2 H heq).2 →
      (∃ n, get_entry (add_eqv_step s e1 e2 H heq).1 t.1 = some n) ∧
      (∃ n, get_entry (add_eqv_step s e1 e2 H heq).1 t.2.1 = some n) := by
  simp only [add_eqv_step]
  split
  · exact merge_absorb_todo_dom e2 e1 (Pf.symm H) heq hInv
  · exact merge_absorb_todo_dom e1 e2 H heq hInv

theorem Inv_merge_absorb {s : state} {e1 e2 : Term} {H : Pf}
    {heq : Bool} (hd1 : ∃ n, get_entry s e1 = some n)
    (hd2 : ∃ n, get_entry s e2 = some n)
    (hne : ¬ get_root s e1 = get_root s e2) (hInv : Inv s) :
    Inv (merge_absorb s e1 e2 H heq).1 := by
  have hmc : Inv (merge_core s e1 e2 H heq) :=
    Inv_merge_core hd1 hd2 hne hInv
  have hri := Inv_reinsert (merge_core_ps1_dom e1 e2 H heq hInv) hmc
  exact Inv_update_mt e2 hri

theorem Inv_add_eqv_step {s : state} {e1 e2 : Term} (H : Pf)
    (heq : Bool) (hd1 : ∃ n, get_entry s e1 = some n)
    (hd2 : ∃ n, get_entry s e2 = some n)
    (hne : ¬ get_root s e1 = get_root s e2) (hInv : Inv s) :
    Inv (add_eqv_step s e1 e2 H heq).1 := by
  simp only [add_eqv_step]
  split
  · exact Inv_merge_absorb hd2 hd1 (fun hh => hne hh.symm) hInv
  · exact Inv_merge_absorb hd1 hd2 hne hInv

theorem Inv_process_todo (fuel : Nat) :
    ∀ (s : state) (td : List todo_entry), Inv s → todo_dom s td →
      Inv (process_todo fuel s td) := by
  induction fuel with
  | zero =>
      intro s td hInv _
      cases td with
      | nil => exact hInv
      | cons t rest => exact hInv
  | succ fuel ih =>
      intro s td hInv htd
      cases td with
      | nil => exact hInv
      | cons t rest =>
          obtain ⟨l, r, H, hq⟩ := t
          simp only [process_todo]
          by_cases hinc : s.m_inconsistent = true
          · rw [if_pos hinc]
            exact hInv
          · rw [if_neg hinc]
            by_cases hroot : get_root s l = get_root s r
            · rw [if_pos hroot]
              exact ih s rest hInv
                (fun t2 ht2 => htd t2 (List.mem_cons_of_mem _ ht2))
            · rw [if_neg hroot]
              have hdl := (htd (l, r, H, hq) (List.mem_cons_self _ _)).1
              have hdr := (htd (l, r, H, hq) (List.mem_cons_self _ _)).2
              apply ih
              · exact Inv_add_eqv_step H hq hdl hdr hroot hInv
              · intro t2 ht2
                rcases List.mem_append.mp ht2 with hh | hh
                · have hold := htd t2 (List.mem_cons_of_mem _ hh)
                  exact ⟨dom_le_add_eqv_step s l r H hq t2.1 hold.1,
                    dom_le_add_eqv_step s l r H hq t2.2.1 hold.2⟩
                · exact add_eqv_step_todo_dom l r H hq hInv t2 hh

theorem dom_le_trans {s1 s2 s3 : state} (h1 : dom_le s1 s2)
    (h2 : dom_le s2 s3) : dom_le s1 s3 :=
  fun x hx => h2 x (h1 x hx)

theorem dom_le_internalize_core (e : Term) :
    ∀ s : state, dom_le s (internalize_core s e).1 := by
  induction e with
  | atom k =>
      intro s
      simp only [internalize_core, apply_simple_eqvs,
        process_subsingleton_elem, mk_entry]
      exact dom_le_mk_entry_core s (Term.atom k) false _ _
  | value k =>
      intro s
      simp only [internalize_core, apply_simple_eqvs,
        process_subsingleton_elem, mk_entry]
      exact dom_le_mk_entry_core s (Term.value k) false _ _
  | app f a ihf iha =>
      intro s
      simp only [internalize_core]
      cases get_entry s (Term.app f a) with
      | some n => exact fun x hx => hx
      | none =>
          simp only [process_subsingleton_elem]
          intro x hx
          exact dom_le_of_same_core (stage_ok_act _ _).1 x
            (dom_le_mk_entry_core _ (Term.app f a) false _ _ x
              (iha _ x (ihf s x hx)))

theorem internalize_core_dom (e : Term) :
    ∀ s : state, ∃ n, get_entry (internalize_core s e).1 e = some n := by
  cases e with
  | atom k =>
      intro s
      simp only [internalize_core, apply_simple_eqvs,
        process_subsingleton_elem]
      exact mk_entry_dom s (Term.atom k) false
  | value k =>
      intro s
      simp only [internalize_core, apply_simple_eqvs,
        process_subsingleton_elem]
      exact mk_entry_dom s (Term.value k) false
  | app f a =>
      intro s
      simp only [internalize_core]
      cases hg : get_entry s (Term.app f a) with
      | some n => exact ⟨n, hg⟩
      | none =>
          simp only [process_subsingleton_elem]
          exact dom_le_of_same_core (stage_ok_act _ _).1 _
            (mk_entry_dom _ (Term.app f a) false)

theorem Inv_internalize_core (e : Term) :
    ∀ s : state, Inv s → Inv (internalize_core s e).1 ∧
      (∀ t, t ∈ (internalize_core s e).2 →
        (∃ n, get_entry (internalize_core s e).1 t.1 = some n) ∧
        (∃ n, get_entry (internalize_core s e).1 t.2.1 = some n)) := by
  induction e with
  | atom k =>
      intro s hInv
      simp only [internalize_core, apply_simple_eqvs,
        process_subsingleton_elem]
      exact ⟨Inv_mk_entry _ _ hInv,
        fun t ht => absurd ht (List.not_mem_nil t)⟩
  | value k =>
      intro s hInv
      simp only [internalize_core, apply_simple_eqvs,
        process_subsingleton_elem]
      exact ⟨Inv_mk_entry _ _ hInv,
        fun t ht => absurd ht (List.not_mem_nil t)⟩
  | app f a ihf iha =>
      intro s hInv
      simp only [internalize_core]
      cases hg : get_entry s (Term.app f a) with
      | some n =>
          exact ⟨hInv, fun t ht => absurd ht (List.not_mem_nil t)⟩
      | none =>
          simp only [process_subsingleton_elem]
          obtain ⟨hInv1, htd1⟩ := ihf s hInv
          obtain ⟨hInv2, htd2⟩ := iha (internalize_core s f).1 hInv1
          have hdom3 := mk_entry_dom
            (internalize_core (internalize_core s f).1 a).1
            (Term.app f a) false
          have hInv3 : Inv (mk_entry
              (internalize_core (internalize_core s f).1 a).1
              (Term.app f a) false) := Inv_mk_entry _ _ hInv2
          have hInv4 : Inv (add_occurrence (mk_entry
              (internalize_core (internalize_core s f).1 a).1
              (Term.app f a) false) (Term.app f a) f false) :=
            Inv_add_occurrence hdom3 hInv3
          have hInv5 : Inv (add_occurrence (add_occurrence (mk_entry
              (internalize_core (internalize_core s f).1 a).1
              (Term.app f a) false) (Term.app f a) f false)
              (Term.app f a) a false) :=
            Inv_add_occurrence hdom3 hInv4
          have hInv6 : Inv (add_congruence_table (add_occurrence
              (add_occurrence (mk_entry
                (internalize_core (internalize_core s f).1 a).1
                (Term.app f a) false) (Term.app f a) f false)
              (Term.app f a) a false) (Term.app f a)).1 :=
            Inv_act hdom3 hInv5
          have hid1 : dom_le (mk_entry
              (internalize_core (internalize_core s f).1 a).1
              (Term.app f a) false)
              (add_occurrence (add_occurrence (mk_entry
                (internalize_core (internalize_core s f).1 a).1
                (Term.app f a) false) (Term.app f a) f false)
              (Term.app f a) a false) := fun x hx => hx
          have hfin : dom_le
              (internalize_core (internalize_core s f).1 a).1
              (add_congruence_table (add_occurrence (add_occurrence
                (mk_entry (internalize_core (internalize_core s f).1 a).1
                  (Term.app f a) false) (Term.app f a) f false)
                (Term.app f a) a false) (Term.app f a)).1 :=
            dom_le_trans (dom_le_mk_entry_core _ (Term.app f a) false _ _)
              (dom_le_trans hid1
                (dom_le_of_same_core (stage_ok_act _ _).1))
          have hfin2 : dom_le (internalize_core s f).1
              (add_congruence_table (add_occurrence (add_occurrence
                (mk_entry (internalize_core (internalize_core s f).1 a).1
                  (Term.app f a) false) (Term.app f a) f false)
                (Term.app f a) a false) (Term.app f a)).1 :=
            dom_le_trans (dom_le_internalize_core a _) hfin
          have hcongs : (add_occurrence (add_occurrence (mk_entry
              (internalize_core (internalize_core s f).1 a).1
              (Term.app f a) false) (Term.app f a) f false)
              (Term.app f a) a false).m_congruences =
              state.m_congruences
                (internalize_core (internalize_core s f).1 a).1 := by
            show (mk_entry (internalize_core (internalize_core s f).1 a).1
              (Term.app f a) false).m_congruences = _
            exact (mk_entry_core_tables _ _ _ _ _).2.1
          refine ⟨hInv6, ?_⟩
          intro t ht
          rcases List.mem_append.mp ht with hh | hh3
          · rcases List.mem_append.mp hh with hh1 | hh2
            · have hold := htd1 t hh1
              exact ⟨hfin2 _ hold.1, hfin2 _ hold.2⟩
            · have hold := htd2 t hh2
              exact ⟨hfin _ hold.1, hfin _ hold.2⟩
          · obtain ⟨h1, h2⟩ := act_todo hh3
            constructor
            · rw [h1]
              exact dom_le_of_same_core (stage_ok_act _ _).1 _ hdom3
            · rw [hcongs] at h2
              exact hfin _ (hInv2.congr_dom _ h2)

theorem Inv_mk_state (ho_fns : List Nat) (cfg : config) :
    Inv (mk_state ho_fns cfg) := by
  constructor
  · intro e n hx; cases hx
  · intro e n hx; cases hx
  · intro e n hx; cases hx
  · intro e n t hx ht; cases hx
  · intro e n hx; cases hx
  · intro k l p hk hp; cases hk
  · intro q hq; cases hq

theorem Inv_internalize (s : state) (e : Term) (hInv : Inv s) :
    Inv (internalize s e) := by
  simp only [internalize]
  obtain ⟨h1, h2⟩ := Inv_internalize_core e s hInv
  exact Inv_process_todo _ _ _ h1 h2

theorem Inv_add_eqv_core (s : state) (a b : Term) (H : Pf) (heq : Bool)
    (hInv : Inv s) : Inv (add_eqv_core s a b H heq) := by
  simp only [add_eqv_core]
  obtain ⟨h1, h2⟩ := Inv_internalize_core a s hInv
  obtain ⟨h3, h4⟩ := Inv_internalize_core b (internalize_core s a).1 h1
  apply Inv_process_todo
  · exact h3
  · intro t ht
    rcases List.mem_append.mp ht with hh | hh3
    · rcases List.mem_append.mp hh with hh1 | hh2
      · have hold := h2 t hh1
        exact ⟨dom_le_internalize_core b _ _ hold.1,
          dom_le_internalize_core b _ _ hold.2⟩
      · exact h4 t hh2
    · have hts := List.mem_singleton.mp hh3
      subst hts
      constructor
      · exact dom_le_internalize_core b _ _ (internalize_core_dom a s)
      · exact internalize_core_dom b _

theorem Inv_add (s : state) (p : Prp) (H : Pf) (hInv : Inv s) :
    Inv (add s p H) := by
  cases p with
  | eq a b => exact Inv_add_eqv_core s a b H false hInv
  | iff a b => exact Inv_add_eqv_core s a b H false hInv
  | heq a b => exact Inv_add_eqv_core s a b H true hInv

theorem Inv_reachable {s : state} (h : Reachable s) : Inv s := by
  induction h with
  | init ho_fns cfg => exact Inv_mk_state ho_fns cfg
  | step _ hstep ih =>
      cases hstep with
      | internalize e => exact Inv_internalize _ e ih
      | add p H => exact Inv_add _ p H ih

/-- C8: in every reachable state, the justification fields of a
registered term's entry (`m_target`, `m_proof`) are present exactly when
the term is not its own root — in particular every class root has no
justification — and following the stored targets from any member reaches
the member's root in finitely many hops (one `ChainTo` constructor per
hop). -/
theorem claim_C8 (s : state) (hs : Reachable s) :
    ∀ e n, get_entry s e = some n →
      ((n.m_target.isSome = true ∧ n.m_proof.isSome = true) ↔
        ¬ n.m_root = e) ∧
      ChainTo s e n.m_root := by
  have hInv := Inv_reachable hs
  intro e n hx
  refine ⟨?_, hInv.chain e n hx⟩
  have ht := hInv.target_iff e n hx
  have hp := hInv.proof_iff e n hx
  constructor
  · rintro ⟨h1, h2⟩ hroot
    rw [ht.mpr hroot] at h1
    cases h1
  · intro hroot
    constructor
    · cases hc : n.m_target with
      | none => exact absurd (ht.mp hc) hroot
      | some t => rfl
    · cases hc : n.m_proof with
      | none => exact absurd (hp.mp hc) hroot
      | some q => rfl

/-- Witness for C8: `ex_trans` is reachable and its justification
structure is as claimed; in particular the non-root member `atom 1`
carries a justification and chains to its root. -/
theorem claim_C8_witness :
    Reachable ex_trans ∧
    (∀ e n, get_entry ex_trans e = some n →
      ((n.m_target.isSome = true ∧ n.m_proof.isSome = true) ↔
        ¬ n.m_root = e) ∧
      ChainTo ex_trans e n.m_root) := by
  have h0 : Reachable ex0 := Reachable.init [] cfg0
  have h1 : Reachable (internalize ex0 (Term.atom 1)) :=
    Reachable.step h0 (Step.internalize _ _)
  have h2 : Reachable (internalize (internalize ex0 (Term.atom 1))
      (Term.atom 3)) := Reachable.step h1 (Step.internalize _ _)
  have h3 : Reachable (internalize (internalize (internalize ex0
      (Term.atom 1)) (Term.atom 3)) (Term.atom 5)) :=
    Reachable.step h2 (Step.internalize _ _)
  have h4 : Reachable (add (internalize (internalize (internalize ex0
      (Term.atom 1)) (Term.atom 3)) (Term.atom 5))
      (Prp.eq (Term.atom 1) (Term.atom 3)) (Pf.hyp 0)) :=
    Reachable.step h3 (Step.add _ _ _)
  have h5 : Reachable ex_trans := Reachable.step h4 (Step.add _ _ _)
  exact ⟨h5, claim_C8 ex_trans h5⟩

/- Equivariance of the engine under injective renamings of atoms.  The
engine compares atoms only for equality, so a run over renamed terms is
the renaming of the original run; this transports concrete runs to
arbitrary distinct atom names. -/

theorem mapE_root (r : Nat → Nat) (n : entry) :
    (mapE r n).m_root = mapT r n.m_root := rfl

theorem mapE_next (r : Nat → Nat) (n : entry) :
    (mapE r n).m_next = mapT r n.m_next := rfl

theorem mapE_mt (r : Nat → Nat) (n : entry) :
    (mapE r n).m_mt = n.m_mt := rfl

theorem mapE_size (r : Nat → Nat) (n : entry) :
    (mapE r n).m_size = n.m_size := rfl

theorem mapE_heq (r : Nat → Nat) (n : entry) :
    (mapE r n).m_heq_proofs = n.m_heq_proofs := rfl

theorem mapE_interp (r : Nat → Nat) (n : entry) :
    (mapE r n).m_interpreted = n.m_interpreted := rfl

theorem mapE_target (r : Nat → Nat) (n : entry) :
    (mapE r n).m_target = n.m_target.map (mapT r) := rfl

theorem mapE_proof (r : Nat → Nat) (n : entry) :
    (mapE r n).m_proof = n.m_proof.map (mapP r) := rfl

theorem mapOcc_expr (r : Nat → Nat) (p : parent_occ) :
    (mapOcc r p).m_expr = mapT r p.m_expr := rfl

theorem mapS_gmt (r : Nat → Nat) (s : state) :
    (mapS r s).m_gmt = s.m_gmt := rfl

theorem mapS_inconsistent (r : Nat → Nat) (s : state) :
    (mapS r s).m_inconsistent = s.m_inconsistent := rfl

theorem mapS_entries (r : Nat → Nat) (s : state) :
    (mapS r s).m_entries
      = s.m_entries.map (fun p => (mapT r p.1, mapE r p.2)) := rfl

theorem mapS_parents (r : Nat → Nat) (s : state) :
    (mapS r s).m_parents
      = s.m_parents.map (fun p => (mapT r p.1, p.2.map (mapOcc r))) := rfl

theorem mapS_congruences (r : Nat → Nat) (s : state) :
    (mapS r s).m_congruences = s.m_congruences.map (mapT r) := rfl

/-- Renaming with an injective atom map is injective on terms. -/
theorem mapT_inj (r : Nat → Nat) (hinj : ∀ x y, r x = r y → x = y) :
    ∀ x y : Term, mapT r x = mapT r y → x = y := by
  intro x
  induction x with
  | atom n =>
      intro y h
      cases y with
      | atom m => exact congrArg Term.atom (hinj _ _ (by simpa [mapT] using h))
      | value m => exact absurd h (by simp [mapT])
      | app f2 a2 => exact absurd h (by simp [mapT])
  | value n =>
      intro y h
      cases y with
      | atom m => exact absurd h (by simp [mapT])
      | value m => simpa [mapT] using h
      | app f2 a2 => exact absurd h (by simp [mapT])
  | app f a ihf iha =>
      intro y h
      cases y with
      | atom m => exact absurd h (by simp [mapT])
      | value m => exact absurd h (by simp [mapT])
      | app f2 a2 =>
          simp only [mapT, Term.app.injEq] at h
          rw [ihf _ h.1, iha _ h.2]

theorem mapT_eq_iff (r : Nat → Nat) (hinj : ∀ x y, r x = r y → x = y)
    (x y : Term) : mapT r x = mapT r y ↔ x = y :=
  ⟨mapT_inj r hinj x y, fun h => h ▸ rfl⟩

theorem decide_mapT_eq (r : Nat → Nat) (hinj : ∀ x y, r x = r y → x = y)
    (x y : Term) : decide (mapT r x = mapT r y) = decide (x = y) :=
  decide_eq_decide.mpr (mapT_eq_iff r hinj x y)

/-- Two states agreeing on every field are equal. -/
theorem state_ext {s1 s2 : state} (h1 : s1.m_entries = s2.m_entries)
    (h2 : s1.m_parents = s2.m_parents)
    (h3 : s1.m_congruences = s2.m_congruences)
    (h4 : s1.m_symm_congruences = s2.m_symm_congruences)
    (h5 : s1.m_subsingleton_reprs = s2.m_subsingleton_reprs)
    (h6 : s1.m_froze_partitions = s2.m_froze_partitions)
    (h7 : s1.m_inconsistent = s2.m_inconsistent)
    (h8 : s1.m_gmt = s2.m_gmt)
    (h9 : s1.m_ho_fns = s2.m_ho_fns)
    (h10 : s1.m_config = s2.m_config) : s1 = s2 := by
  cases s1; cases s2
  simp only [state.mk.injEq]
  exact ⟨h1, h2, h3, h4, h5, h6, h7, h8, h9, h10⟩

/-- Association-list lookup commutes with renaming the keys and mapping
the values. -/
theorem alookup_mapg {α β : Type} (g : α → β) (r : Nat → Nat)
    (hinj : ∀ x y, r x = r y → x = y) (l : List (Term × α)) (e : Term) :
    alookup (l.map (fun p => (mapT r p.1, g p.2))) (mapT r e)
      = (alookup l e).map g := by
  induction l with
  | nil => rfl
  | cons p l ih =>
      simp only [List.map_cons, alookup]
      by_cases h : e = p.1
      · subst h
        simp
      · rw [if_neg (fun hc => h (mapT_inj r hinj _ _ hc)), if_neg h, ih]

/-- Pointwise association-list update commutes with renaming, given that
the update functions commute pointwise. -/
theorem amap_mapg {α β : Type} (F : Term → α → α) (G : Term → β → β)
    (g : α → β) (r : Nat → Nat)
    (hFG : ∀ t a, G (mapT r t) (g a) = g (F t a)) (l : List (Term × α)) :
    amap G (l.map (fun p => (mapT r p.1, g p.2)))
      = (amap F l).map (fun p => (mapT r p.1, g p.2)) := by
  induction l with
  | nil => rfl
  | cons p l ih =>
      simp only [List.map_cons, amap, ih, hFG]

/-- Filtering a mapped list with a commuting predicate. -/
theorem filter_mapg {α β : Type} (f : α → β) (p : β → Bool) (q : α → Bool)
    (hpq : ∀ a, p (f a) = q a) (l : List α) :
    (l.map f).filter p = (l.filter q).map f := by
  induction l with
  | nil => rfl
  | cons a l ih =>
      simp only [List.map_cons, List.filter_cons, hpq a, ih]
      cases q a <;> simp

theorem get_entry_mapS (r : Nat → Nat) (hinj : ∀ x y, r x = r y → x = y)
    (s : state) (e : Term) :
    get_entry (mapS r s) (mapT r e) = (get_entry s e).map (mapE r) := by
  show alookup (s.m_entries.map (fun p => (mapT r p.1, mapE r p.2)))
    (mapT r e) = _
  exact alookup_mapg (mapE r) r hinj s.m_entries e

theorem get_root_mapS (r : Nat → Nat) (hinj : ∀ x y, r x = r y → x = y)
    (s : state) (e : Term) :
    get_root (mapS r s) (mapT r e) = mapT r (get_root s e) := by
  unfold get_root
  rw [get_entry_mapS r hinj]
  cases hge : get_entry s e <;> rfl

theorem get_next_mapS (r : Nat → Nat) (hinj : ∀ x y, r x = r y → x = y)
    (s : state) (e : Term) :
    get_next (mapS r s) (mapT r e) = mapT r (get_next s e) := by
  unfold get_next
  rw [get_entry_mapS r hinj]
  cases hge : get_entry s e <;> rfl

theorem is_eqv_mapS (r : Nat → Nat) (hinj : ∀ x y, r x = r y → x = y)
    (s : state) (a b : Term) :
    is_eqv (mapS r s) (mapT r a) (mapT r b) = is_eqv s a b := by
  unfold is_eqv
  rw [get_entry_mapS r hinj, get_entry_mapS r hinj]
  cases hga : get_entry s a <;> cases hgb : get_entry s b
  · rfl
  · rfl
  · rfl
  · exact decide_mapT_eq r hinj _ _

theorem root_size_mapS (r : Nat → Nat) (hinj : ∀ x y, r x = r y → x = y)
    (s : state) (e : Term) :
    root_size (mapS r s) (mapT r e) = root_size s e := by
  unfold root_size
  rw [get_entry_mapS r hinj]
  cases hge : get_entry s e <;> rfl

theorem root_heq_mapS (r : Nat → Nat) (hinj : ∀ x y, r x = r y → x = y)
    (s : state) (e : Term) :
    root_heq (mapS r s) (mapT r e) = root_heq s e := by
  unfold root_heq
  rw [get_entry_mapS r hinj]
  cases hge : get_entry s e <;> rfl

theorem root_interp_mapS (r : Nat → Nat) (hinj : ∀ x y, r x = r y → x = y)
    (s : state) (e : Term) :
    root_interp (mapS r s) (mapT r e) = root_interp s e := by
  unfold root_interp
  rw [get_entry_mapS r hinj]
  cases hge : get_entry s e <;> rfl

theorem is_interp_mapT (r : Nat → Nat) (e : Term) :
    is_interpreted_value (mapT r e) = is_interpreted_value e := by
  cases e <;> rfl

theorem decide_mapT_ne (r : Nat → Nat) (hinj : ∀ x y, r x = r y → x = y)
    (x y : Term) : decide (mapT r x ≠ mapT r y) = decide (x ≠ y) :=
  decide_eq_decide.mpr (not_congr (mapT_eq_iff r hinj x y))

theorem pair_ext {α β : Type} {p q : α × β} (h1 : p.1 = q.1)
    (h2 : p.2 = q.2) : p = q := by
  cases p; cases q; cases h1; cases h2; rfl

/-- List search commutes with mapping, given a commuting predicate. -/
theorem find_mapg {α : Type} (f : α → α) (p q : α → Bool)
    (hpq : ∀ a, p (f a) = q a) (l : List α) :
    (l.map f).find? p = (l.find? q).map f := by
  induction l with
  | nil => rfl
  | cons a l ih =>
      simp only [List.map_cons, List.find?_cons, hpq a, ih]
      cases q a <;> simp

theorem contains_mapT (r : Nat → Nat) (hinj : ∀ x y, r x = r y → x = y)
    (l : List Term) (e : Term) :
    (l.map (mapT r)).contains (mapT r e) = l.contains e := by
  induction l with
  | nil => rfl
  | cons q l ih =>
      simp only [List.map_cons, List.contains_cons, ih]
      by_cases h : e = q
      · subst h
        simp
      · have h2 : ¬ mapT r e = mapT r q :=
          fun hc => h (mapT_inj r hinj _ _ hc)
        rw [beq_eq_false_iff_ne.mpr h2, beq_eq_false_iff_ne.mpr h]

theorem mk_entry_core_mapS (r : Nat → Nat)
    (hinj : ∀ x y, r x = r y → x = y) (s : state) (e : Term)
    (tp ip ct : Bool) :
    mk_entry_core (mapS r s) (mapT r e) tp ip ct
      = mapS r (mk_entry_core s e tp ip ct) := by
  unfold mk_entry_core
  rw [get_entry_mapS r hinj]
  cases hge : get_entry s e with
  | some n => rfl
  | none =>
      refine state_ext ?_ rfl rfl rfl rfl rfl rfl rfl rfl rfl
      show (s.m_entries.map (fun p => (mapT r p.1, mapE r p.2))) ++
          [(mapT r e, fresh_entry (mapT r e) tp ip ct s.m_gmt)]
        = (s.m_entries ++ [(e, fresh_entry e tp ip ct s.m_gmt)]).map
            (fun p => (mapT r p.1, mapE r p.2))
      rw [List.map_append]
      rfl

theorem mk_entry_mapS (r : Nat → Nat) (hinj : ∀ x y, r x = r y → x = y)
    (s : state) (e : Term) (tp : Bool) :
    mk_entry (mapS r s) (mapT r e) tp = mapS r (mk_entry s e tp) := by
  unfold mk_entry
  rw [is_interp_mapT]
  exact mk_entry_core_mapS r hinj s e tp _ false

theorem pinsert_mapS (r : Nat → Nat) (hinj : ∀ x y, r x = r y → x = y)
    (l : List (Term × List parent_occ)) (k : Term) (occ : parent_occ) :
    pinsert (l.map (fun p => (mapT r p.1, p.2.map (mapOcc r))))
        (mapT r k) (mapOcc r occ)
      = (pinsert l k occ).map
          (fun p => (mapT r p.1, p.2.map (mapOcc r))) := by
  unfold pinsert
  rw [alookup_mapg (List.map (mapOcc r)) r hinj]
  cases ha : alookup l k with
  | some u =>
      refine amap_mapg _ _ (List.map (mapOcc r)) r (fun t a => ?_) l
      by_cases h : t = k
      · subst h
        rw [if_pos rfl, if_pos rfl, List.map_append]
        rfl
      · rw [if_neg h, if_neg (fun hc => h (mapT_inj r hinj _ _ hc))]
  | none =>
      rw [List.map_append]
      rfl

theorem add_occurrence_mapS (r : Nat → Nat)
    (hinj : ∀ x y, r x = r y → x = y) (s : state) (parent child : Term)
    (sb : Bool) :
    add_occurrence (mapS r s) (mapT r parent) (mapT r child) sb
      = mapS r (add_occurrence s parent child sb) := by
  unfold add_occurrence
  refine state_ext rfl ?_ rfl rfl rfl rfl rfl rfl rfl rfl
  show pinsert (s.m_parents.map (fun p => (mapT r p.1, p.2.map (mapOcc r))))
      (get_root (mapS r s) (mapT r child)) ⟨mapT r parent, sb⟩
    = (pinsert s.m_parents (get_root s child) ⟨parent, sb⟩).map
        (fun p => (mapT r p.1, p.2.map (mapOcc r)))
  rw [get_root_mapS r hinj]
  exact pinsert_mapS r hinj s.m_parents (get_root s child) ⟨parent, sb⟩

theorem congr_key_eq_mapS (r : Nat → Nat)
    (hinj : ∀ x y, r x = r y → x = y) (s : state) (x y : Term) :
    congr_key_eq (mapS r s) (mapT r x) (mapT r y) = congr_key_eq s x y := by
  cases x <;> cases y <;> first
    | rfl
    | simp only [mapT, congr_key_eq, get_root_mapS r hinj,
        decide_mapT_eq r hinj]

theorem table_find_mapS (r : Nat → Nat) (hinj : ∀ x y, r x = r y → x = y)
    (s : state) (e : Term) :
    table_find (mapS r s) (mapT r e) = (table_find s e).map (mapT r) := by
  unfold table_find
  rw [mapS_congruences]
  refine find_mapg (mapT r) _
    (fun q => congr_key_eq s e q && decide (q ≠ e)) (fun a => ?_)
    s.m_congruences
  rw [congr_key_eq_mapS r hinj, decide_mapT_ne r hinj]

theorem set_cg_root_mapS (r : Nat → Nat)
    (hinj : ∀ x y, r x = r y → x = y) (s : state) (e tgt : Term) :
    set_cg_root (mapS r s) (mapT r e) (mapT r tgt)
      = mapS r (set_cg_root s e tgt) := by
  unfold set_cg_root
  refine state_ext ?_ rfl rfl rfl rfl rfl rfl rfl rfl rfl
  refine amap_mapg _ _ (mapE r) r (fun t a => ?_) s.m_entries
  by_cases h : t = e
  · subst h
    rw [if_pos rfl, if_pos rfl]
    rfl
  · rw [if_neg h, if_neg (fun hc => h (mapT_inj r hinj _ _ hc))]

theorem act_mapS (r : Nat → Nat) (hinj : ∀ x y, r x = r y → x = y)
    (s : state) (e : Term) :
    add_congruence_table (mapS r s) (mapT r e)
      = (mapS r (add_congruence_table s e).1,
         (add_congruence_table s e).2.map (mapTD r)) := by
  unfold add_congruence_table
  rw [table_find_mapS r hinj]
  cases hf : table_find s e with
  | some q => exact pair_ext (set_cg_root_mapS r hinj s e q) rfl
  | none =>
      rw [mapS_congruences, contains_mapT r hinj]
      by_cases hc : s.m_congruences.contains e = true
      · rw [if_pos hc, if_pos hc]
        rfl
      · rw [if_neg hc, if_neg hc]
        refine pair_ext ?_ rfl
        refine state_ext rfl rfl ?_ rfl rfl rfl rfl rfl rfl rfl
        show (s.m_congruences.map (mapT r)) ++ [mapT r e]
          = (s.m_congruences ++ [e]).map (mapT r)
        rw [List.map_append]
        rfl

theorem omap_some {α β : Type} (f : α → β) (a : α) :
    Option.map f (some a) = some (f a) := rfl

theorem omap_none {α β : Type} (f : α → β) :
    Option.map f (none : Option α) = none := rfl

theorem internalize_core_mapS (r : Nat → Nat)
    (hinj : ∀ x y, r x = r y → x = y) :
    ∀ (e : Term) (s : state),
    internalize_core (mapS r s) (mapT r e)
      = (mapS r (internalize_core s e).1,
         (internalize_core s e).2.map (mapTD r)) := by
  intro e
  induction e with
  | atom k =>
      intro s
      exact pair_ext (mk_entry_mapS r hinj s (Term.atom k) false) rfl
  | value k =>
      intro s
      exact pair_ext (mk_entry_mapS r hinj s (Term.value k) false) rfl
  | app f a ihf iha =>
      intro s
      show internalize_core (mapS r s) (Term.app (mapT r f) (mapT r a)) = _
      simp only [internalize_core]
      rw [show get_entry (mapS r s) (Term.app (mapT r f) (mapT r a))
            = (get_entry s (Term.app f a)).map (mapE r) from
          get_entry_mapS r hinj s (Term.app f a)]
      cases hge : get_entry s (Term.app f a) with
      | some n => rfl
      | none =>
          dsimp only [omap_none]
          rw [ihf s]
          dsimp only
          rw [iha ((internalize_core s f).1)]
          dsimp only
          rw [show Term.app (mapT r f) (mapT r a) = mapT r (Term.app f a)
                from rfl,
              mk_entry_mapS r hinj, add_occurrence_mapS r hinj,
              add_occurrence_mapS r hinj, act_mapS r hinj]
          dsimp only
          rw [List.map_append, List.map_append]
          rfl

theorem set_mt_mapS (r : Nat → Nat) (hinj : ∀ x y, r x = r y → x = y)
    (s : state) (e : Term) (v : Nat) :
    set_mt (mapS r s) (mapT r e) v = mapS r (set_mt s e v) := by
  unfold set_mt
  refine state_ext ?_ rfl rfl rfl rfl rfl rfl rfl rfl rfl
  refine amap_mapg _ _ (mapE r) r (fun t a => ?_) s.m_entries
  by_cases h : t = e
  · subst h
    rw [if_pos rfl, if_pos rfl]
    rfl
  · rw [if_neg h, if_neg (fun hc => h (mapT_inj r hinj _ _ hc))]

theorem parents_of_mapS (r : Nat → Nat) (hinj : ∀ x y, r x = r y → x = y)
    (s : state) (k : Term) :
    parents_of (mapS r s) (mapT r k)
      = (parents_of s k).map (mapOcc r) := by
  unfold parents_of
  rw [mapS_parents, alookup_mapg (List.map (mapOcc r)) r hinj]
  cases hh : alookup s.m_parents k <;> rfl

theorem update_mt_core_mapS (r : Nat → Nat)
    (hinj : ∀ x y, r x = r y → x = y) :
    ∀ (fuel : Nat) (s : state) (l : List parent_occ),
    update_mt_core fuel (mapS r s) (l.map (mapOcc r))
      = mapS r (update_mt_core fuel s l) := by
  intro fuel
  induction fuel with
  | zero =>
      intro s l
      rfl
  | succ fuel ih =>
      intro s l
      cases l with
      | nil => rfl
      | cons p rest =>
          show update_mt_core (fuel + 1) (mapS r s)
            (mapOcc r p :: rest.map (mapOcc r)) = _
          simp only [update_mt_core]
          rw [mapOcc_expr, get_entry_mapS r hinj]
          cases hge : get_entry s p.m_expr with
          | none =>
              dsimp only [omap_none]
              exact ih s rest
          | some n =>
              dsimp only [omap_some]
              rw [mapE_mt, mapS_gmt]
              by_cases hlt : n.m_mt < s.m_gmt
              · rw [if_pos hlt, if_pos hlt, set_mt_mapS r hinj,
                    get_root_mapS r hinj, parents_of_mapS r hinj,
                    ih (set_mt s p.m_expr s.m_gmt) _, ih _ rest]
              · rw [if_neg hlt, if_neg hlt]
                exact ih s rest

theorem update_mt_mapS (r : Nat → Nat) (hinj : ∀ x y, r x = r y → x = y)
    (s : state) (e : Term) :
    update_mt (mapS r s) (mapT r e) = mapS r (update_mt s e) := by
  unfold update_mt
  rw [show (mapS r s).m_entries.length = s.m_entries.length from by
        rw [mapS_entries, List.length_map],
      get_root_mapS r hinj, parents_of_mapS r hinj]
  exact update_mt_core_mapS r hinj _ s _

theorem reinsert_list_mapS (r : Nat → Nat)
    (hinj : ∀ x y, r x = r y → x = y) :
    ∀ (l : List parent_occ) (s : state),
    reinsert_list (mapS r s) (l.map (mapOcc r))
      = (mapS r (reinsert_list s l).1,
         (reinsert_list s l).2.map (mapTD r)) := by
  intro l
  induction l with
  | nil =>
      intro s
      rfl
  | cons p rest ih =>
      intro s
      show reinsert_list (mapS r s) (mapOcc r p :: rest.map (mapOcc r)) = _
      simp only [reinsert_list]
      rw [mapOcc_expr, act_mapS r hinj]
      dsimp only
      rw [ih (add_congruence_table s p.m_expr).1]
      dsimp only
      rw [List.map_append]

theorem mapE_target_some_iff (r : Nat → Nat)
    (hinj : ∀ x y, r x = r y → x = y) (n : entry) (x : Term) :
    (mapE r n).m_target = some (mapT r x) ↔ n.m_target = some x := by
  rw [mapE_target]
  cases hu : n.m_target with
  | none => simp
  | some u =>
      rw [omap_some]
      simp [mapT_eq_iff r hinj]

theorem relink_entry_mapE (r : Nat → Nat)
    (hinj : ∀ x y, r x = r y → x = y) (r1 r2 n1 n2 : Term) (lnk : Pf)
    (g sz : Nat) (hq : Bool) (t : Term) (n : entry) :
    relink_entry (mapT r r1) (mapT r r2) (mapT r n1) (mapT r n2)
        (mapP r lnk) g sz hq (mapT r t) (mapE r n)
      = mapE r (relink_entry r1 r2 n1 n2 lnk g sz hq t n) := by
  unfold relink_entry
  by_cases h1 : n.m_root = r1
  · rw [if_pos h1, if_pos (show (mapE r n).m_root = mapT r r1 from by
        rw [mapE_root, h1])]
    by_cases h2 : t = r1
    · rw [if_pos h2, if_pos (show mapT r t = mapT r r1 from by rw [h2])]
      rfl
    · rw [if_neg h2, if_neg (fun hc => h2 (mapT_inj r hinj _ _ hc))]
      by_cases h3 : n.m_target = some r1
      · rw [if_pos h3, if_pos ((mapE_target_some_iff r hinj n r1).mpr h3),
            mapE_proof]
        cases hp : n.m_proof <;> rfl
      · rw [if_neg h3,
            if_neg (fun hc => h3 ((mapE_target_some_iff r hinj n r1).mp hc))]
        rfl
  · rw [if_neg h1, if_neg (fun hc =>
        h1 (mapT_inj r hinj _ _ (by rwa [mapE_root] at hc)))]
    by_cases h2 : t = r2
    · rw [if_pos h2, if_pos (show mapT r t = mapT r r2 from by rw [h2])]
      rfl
    · rw [if_neg h2, if_neg (fun hc => h2 (mapT_inj r hinj _ _ hc))]

theorem merge_core_mapS (r : Nat → Nat) (hinj : ∀ x y, r x = r y → x = y)
    (s : state) (e1 e2 : Term) (H : Pf) (heq : Bool) :
    merge_core (mapS r s) (mapT r e1) (mapT r e2) (mapP r H) heq
      = mapS r (merge_core s e1 e2 H heq) := by
  unfold merge_core
  simp only [get_root_mapS r hinj, get_next_mapS r hinj,
    root_size_mapS r hinj, root_heq_mapS r hinj, root_interp_mapS r hinj,
    parents_of_mapS r hinj, mapS_gmt, mapS_inconsistent]
  refine state_ext ?_ ?_ ?_ rfl rfl rfl rfl rfl rfl rfl
  · show amap (relink_entry (mapT r (get_root s e1))
        (mapT r (get_root s e2)) (mapT r (get_next s (get_root s e1)))
        (mapT r (get_next s (get_root s e2)))
        (Pf.link (mapT r e1) (mapT r e2) (mapP r H)) (s.m_gmt + 1)
        (root_size s (get_root s e1) + root_size s (get_root s e2))
        (heq || root_heq s (get_root s e1) || root_heq s (get_root s e2)))
        (s.m_entries.map (fun p => (mapT r p.1, mapE r p.2)))
      = _
    rw [show Pf.link (mapT r e1) (mapT r e2) (mapP r H)
          = mapP r (Pf.link e1 e2 H) from rfl]
    exact amap_mapg _ _ (mapE r) r
      (fun t a => relink_entry_mapE r hinj _ _ _ _ _ _ _ _ t a)
      s.m_entries
  · show ((s.m_parents.map (fun p => (mapT r p.1, p.2.map (mapOcc r)))).filter
        (fun p => !(decide (p.1 = mapT r (get_root s e1))) &&
                  !(decide (p.1 = mapT r (get_root s e2)))))
      ++ [(mapT r (get_root s e2),
           (parents_of s (get_root s e2)).map (mapOcc r)
             ++ (parents_of s (get_root s e1)).map (mapOcc r))]
      = ((s.m_parents.filter
            (fun p => !(decide (p.1 = get_root s e1)) &&
                      !(decide (p.1 = get_root s e2))))
          ++ [(get_root s e2,
               parents_of s (get_root s e2) ++ parents_of s (get_root s e1))]).map
          (fun p => (mapT r p.1, p.2.map (mapOcc r)))
    have hf := filter_mapg
      (fun p : Term × List parent_occ => (mapT r p.1, p.2.map (mapOcc r)))
      (fun p => !(decide (p.1 = mapT r (get_root s e1))) &&
                !(decide (p.1 = mapT r (get_root s e2))))
      (fun p => !(decide (p.1 = get_root s e1)) &&
                !(decide (p.1 = get_root s e2)))
      (fun p => by
        dsimp only
        rw [decide_mapT_eq r hinj, decide_mapT_eq r hinj])
      s.m_parents
    rw [List.map_append, hf, ← List.map_append]
    rfl
  · show (s.m_congruences.map (mapT r)).filter
        (fun q => !(((parents_of s (get_root s e1)).map (mapOcc r)).any
          (fun p => decide (p.m_expr = q))))
      = (s.m_congruences.filter
          (fun q => !((parents_of s (get_root s e1)).any
            (fun p => decide (p.m_expr = q))))).map (mapT r)
    refine filter_mapg (mapT r) _ _ (fun a => ?_) s.m_congruences
    simp only [List.any_map, Function.comp_def, mapOcc_expr,
      decide_mapT_eq r hinj]

theorem merge_absorb_mapS (r : Nat → Nat)
    (hinj : ∀ x y, r x = r y → x = y) (s : state) (e1 e2 : Term) (H : Pf)
    (heq : Bool) :
    merge_absorb (mapS r s) (mapT r e1) (mapT r e2) (mapP r H) heq
      = (mapS r (merge_absorb s e1 e2 H heq).1,
         (merge_absorb s e1 e2 H heq).2.map (mapTD r)) := by
  unfold merge_absorb
  simp only [get_root_mapS r hinj, parents_of_mapS r hinj,
    merge_core_mapS r hinj s e1 e2 H heq]
  rw [reinsert_list_mapS r hinj (parents_of s (get_root s e1))
      (merge_core s e1 e2 H heq)]
  dsimp only
  rw [update_mt_mapS r hinj]

theorem add_eqv_step_mapS (r : Nat → Nat)
    (hinj : ∀ x y, r x = r y → x = y) (s : state) (e1 e2 : Term) (H : Pf)
    (heq : Bool) :
    add_eqv_step (mapS r s) (mapT r e1) (mapT r e2) (mapP r H) heq
      = (mapS r (add_eqv_step s e1 e2 H heq).1,
         (add_eqv_step s e1 e2 H heq).2.map (mapTD r)) := by
  unfold add_eqv_step
  simp only [get_root_mapS r hinj, root_size_mapS r hinj,
    root_interp_mapS r hinj]
  by_cases hc : root_size s (get_root s e2) < root_size s (get_root s e1) ∨
      (root_size s (get_root s e1) = root_size s (get_root s e2) ∧
        root_interp s (get_root s e2) = true ∧
        root_interp s (get_root s e1) = false)
  · rw [if_pos hc, if_pos hc]
    exact merge_absorb_mapS r hinj s e2 e1 (Pf.symm H) heq
  · rw [if_neg hc, if_neg hc]
    exact merge_absorb_mapS r hinj s e1 e2 H heq

theorem process_todo_mapS (r : Nat → Nat)
    (hinj : ∀ x y, r x = r y → x = y) :
    ∀ (fuel : Nat) (s : state) (td : List todo_entry),
    process_todo fuel (mapS r s) (td.map (mapTD r))
      = mapS r (process_todo fuel s td) := by
  intro fuel
  induction fuel with
  | zero =>
      intro s td
      cases td <;> rfl
  | succ fuel ih =>
      intro s td
      cases td with
      | nil => rfl
      | cons t rest =>
          obtain ⟨a, b, H, hq⟩ := t
          show process_todo (fuel + 1) (mapS r s)
            ((mapT r a, mapT r b, mapP r H, hq) :: rest.map (mapTD r)) = _
          simp only [process_todo]
          rw [mapS_inconsistent]
          by_cases hinc : s.m_inconsistent = true
          · rw [if_pos hinc, if_pos hinc]
          · rw [if_neg hinc, if_neg hinc, get_root_mapS r hinj,
                get_root_mapS r hinj]
            by_cases hr : get_root s a = get_root s b
            · rw [if_pos (by rw [hr]), if_pos hr]
              exact ih s rest
            · rw [if_neg (fun hc => hr (mapT_inj r hinj _ _ hc)), if_neg hr,
                  add_eqv_step_mapS r hinj]
              dsimp only
              rw [← List.map_append]
              exact ih _ _

theorem todo_fuel_mapS (r : Nat → Nat) (s : state)
    (td : List todo_entry) :
    todo_fuel (mapS r s) (td.map (mapTD r)) = todo_fuel s td := by
  unfold todo_fuel
  rw [mapS_entries]
  simp [List.length_map]

theorem internalize_mapS (r : Nat → Nat)
    (hinj : ∀ x y, r x = r y → x = y) (s : state) (e : Term) :
    internalize (mapS r s) (mapT r e) = mapS r (internalize s e) := by
  unfold internalize
  rw [internalize_core_mapS r hinj]
  dsimp only
  rw [todo_fuel_mapS r, process_todo_mapS r hinj]

theorem add_eqv_core_mapS (r : Nat → Nat)
    (hinj : ∀ x y, r x = r y → x = y) (s : state) (lhs rhs : Term)
    (H : Pf) (heq : Bool) :
    add_eqv_core (mapS r s) (mapT r lhs) (mapT r rhs) (mapP r H) heq
      = mapS r (add_eqv_core s lhs rhs H heq) := by
  unfold add_eqv_core
  rw [internalize_core_mapS r hinj]
  dsimp only
  rw [internalize_core_mapS r hinj]
  dsimp only
  rw [show [((mapT r lhs, mapT r rhs, mapP r H, heq) : todo_entry)]
        = ([(lhs, rhs, H, heq)] : List todo_entry).map (mapTD r) from rfl,
      ← List.map_append, ← List.map_append,
      todo_fuel_mapS r, process_todo_mapS r hinj]

theorem add_mapS_eq (r : Nat → Nat) (hinj : ∀ x y, r x = r y → x = y)
    (s : state) (a b : Term) (H : Pf) :
    add (mapS r s) (Prp.eq (mapT r a) (mapT r b)) (mapP r H)
      = mapS r (add s (Prp.eq a b) H) := by
  simp only [add]
  exact add_eqv_core_mapS r hinj s a b H false

/-- The scenario renaming is injective when the five names are pairwise
distinct: the five scenario atoms go to the five names and every other
atom is sent above all of them. -/
theorem ren_inj (f a1 a2 b1 b2 : Nat) (h1 : f ≠ a1) (h2 : f ≠ a2)
    (h3 : f ≠ b1) (h4 : f ≠ b2) (h5 : a1 ≠ a2) (h6 : a1 ≠ b1)
    (h7 : a1 ≠ b2) (h8 : a2 ≠ b1) (h9 : a2 ≠ b2) (h10 : b1 ≠ b2) :
    ∀ x y, ren f a1 a2 b1 b2 x = ren f a1 a2 b1 b2 y → x = y := by
  intro x y h
  unfold ren at h
  split_ifs at h <;> omega

/-- The unary scenario at renamed atoms is the renaming of the concrete
unary scenario. -/
theorem scenario_unary_ren (r : Nat → Nat)
    (hinj : ∀ x y, r x = r y → x = y) :
    scenario_unary (r 0) (r 1) (r 2) = mapS r (scenario_unary 0 1 2) := by
  show add (internalize (internalize (mapS r ex0)
        (mapT r (Term.app (Term.atom 0) (Term.atom 1))))
        (mapT r (Term.app (Term.atom 0) (Term.atom 2))))
      (Prp.eq (mapT r (Term.atom 1)) (mapT r (Term.atom 2)))
      (mapP r (Pf.hyp 0)) = _
  rw [internalize_mapS r hinj, internalize_mapS r hinj, add_mapS_eq r hinj]
  rfl

/-- The binary scenario at renamed atoms is the renaming of the concrete
binary scenario. -/
theorem scenario_binary_ren (r : Nat → Nat)
    (hinj : ∀ x y, r x = r y → x = y) :
    scenario_binary (r 0) (r 1) (r 2) (r 3) (r 4)
      = mapS r (scenario_binary 0 1 2 3 4) := by
  show add (add (internalize (internalize (mapS r ex0)
        (mapT r (Term.app (Term.app (Term.atom 0) (Term.atom 1))
          (Term.atom 2))))
        (mapT r (Term.app (Term.app (Term.atom 0) (Term.atom 3))
          (Term.atom 4))))
      (Prp.eq (mapT r (Term.atom 1)) (mapT r (Term.atom 3)))
      (mapP r (Pf.hyp 0)))
      (Prp.eq (mapT r (Term.atom 2)) (mapT r (Term.atom 4)))
      (mapP r (Pf.hyp 1)) = _
  rw [internalize_mapS r hinj, internalize_mapS r hinj,
      add_mapS_eq r hinj, add_mapS_eq r hinj]
  rfl

/-- C1: congruence propagation.  For any pairwise distinct atom names:
in the binary scenario — internalize the applications `f(a1,a2)` and
`f(b1,b2)` (curried), then assert `a1 = b1` and `a2 = b2` via `add` —
the query `is_eqv (f(a1,a2)) (f(b1,b2))` returns `true`; and in the
unary Scenario A — internalize `f(a1)` and `f(b1)`, then assert
`a1 = b1` — the query `is_eqv (f(a1)) (f(b1))` returns `true`.  In both
scenarios the equality of the two applications themselves is never
asserted: by construction of `scenario_binary`/`scenario_unary`, only
the argument equalities are ever passed to `add`.  Proved by
transporting the concrete runs along an injective atom renaming, using
the equivariance of the engine. -/
theorem claim_C1 (f a1 a2 b1 b2 : Nat) (h1 : f ≠ a1) (h2 : f ≠ a2)
    (h3 : f ≠ b1) (h4 : f ≠ b2) (h5 : a1 ≠ a2) (h6 : a1 ≠ b1)
    (h7 : a1 ≠ b2) (h8 : a2 ≠ b1) (h9 : a2 ≠ b2) (h10 : b1 ≠ b2) :
    is_eqv (scenario_binary f a1 a2 b1 b2)
        (Term.app (Term.app (Term.atom f) (Term.atom a1)) (Term.atom a2))
        (Term.app (Term.app (Term.atom f) (Term.atom b1)) (Term.atom b2))
      = true ∧
    is_eqv (scenario_unary f a1 b1)
        (Term.app (Term.atom f) (Term.atom a1))
        (Term.app (Term.atom f) (Term.atom b1))
      = true := by
  constructor
  · have hinj := ren_inj f a1 a2 b1 b2 h1 h2 h3 h4 h5 h6 h7 h8 h9 h10
    have hs : scenario_binary f a1 a2 b1 b2
        = mapS (ren f a1 a2 b1 b2) (scenario_binary 0 1 2 3 4) :=
      scenario_binary_ren (ren f a1 a2 b1 b2) hinj
    rw [hs]
    exact Eq.trans (is_eqv_mapS (ren f a1 a2 b1 b2) hinj
      (scenario_binary 0 1 2 3 4)
      (Term.app (Term.app (Term.atom 0) (Term.atom 1)) (Term.atom 2))
      (Term.app (Term.app (Term.atom 0) (Term.atom 3)) (Term.atom 4)))
      (by decide)
  · have hinj : ∀ x y,
        ren f a1 b1 (f + a1 + b1 + 1) (f + a1 + b1 + 2) x
          = ren f a1 b1 (f + a1 + b1 + 1) (f + a1 + b1 + 2) y → x = y :=
      ren_inj f a1 b1 (f + a1 + b1 + 1) (f + a1 + b1 + 2)
        h1 h3 (by omega) (by omega) h6 (by omega) (by omega)
        (by omega) (by omega) (by omega)
    have hs : scenario_unary f a1 b1
        = mapS (ren f a1 b1 (f + a1 + b1 + 1) (f + a1 + b1 + 2))
            (scenario_unary 0 1 2) :=
      scenario_unary_ren
        (ren f a1 b1 (f + a1 + b1 + 1) (f + a1 + b1 + 2)) hinj
    rw [hs]
    exact Eq.trans (is_eqv_mapS
      (ren f a1 b1 (f + a1 + b1 + 1) (f + a1 + b1 + 2)) hinj
      (scenario_unary 0 1 2)
      (Term.app (Term.atom 0) (Term.atom 1))
      (Term.app (Term.atom 0) (Term.atom 2)))
      (by decide)

/-- Witness for C1 at the concrete distinct atoms `0 1 2 3 4`. -/
theorem claim_C1_witness :
    is_eqv (scenario_binary 0 1 2 3 4)
        (Term.app (Term.app (Term.atom 0) (Term.atom 1)) (Term.atom 2))
        (Term.app (Term.app (Term.atom 0) (Term.atom 3)) (Term.atom 4))
      = true ∧
    is_eqv (scenario_unary 0 1 3)
        (Term.app (Term.atom 0) (Term.atom 1))
        (Term.app (Term.atom 0) (Term.atom 3))
      = true :=
  claim_C1 0 1 2 3 4 (by decide) (by decide) (by decide) (by decide)
    (by decide) (by decide) (by decide) (by decide) (by decide) (by decide)

end CC
